import Mathlib

/-!
Verification of the `lwobj` Wavefront OBJ loader/serializer (`src/obj.rs`).

The embedding is a shallow one:

* `ObjData.load` models `ObjData::load` as a function over the list of text
  lines delivered by the `BufReader` (I/O itself is out of scope, so the
  `Io` error variant never arises and is omitted).  Each call of
  `read_line` appends the line's characters plus `'\n'` to the loop buffer
  `buf`; the model reproduces this, including the fact that the
  `continue` for token-less lines skips `buf.clear()`.
* `ObjData.write` models `ObjData::write` as a function producing the list
  of emitted lines (each `write_all` sequence in the source terminates a
  line with `"\n"`; the model returns each logical line without the
  trailing newline).
* Machine integers (`usize`) are modelled as `Nat`; the only places where
  wrap-around matters are the `val - 1` index conversions and the
  `val + 1` re-biasing during write, which are modelled explicitly modulo
  `2^64` (release-mode two's-complement wrapping).
* `f32` values are abstracted by a `FloatModel`: a parsing function (for
  `str::parse::<f32>`), a formatting function (for `format!("{}")`), and
  the two constants `1.0` and `0.0` appearing in the source.  A concrete
  instantiation `f32TokModel` keeps the accepted token itself as the
  value; its acceptance test `f32Grammar` follows the grammar of Rust's
  `f32::from_str`.  (No claim below depends on numeric float values.)
* Rust's `HashSet<usize>` (group membership, compared by `PartialEq` as a
  set) is modelled as `Finset ℕ`.
-/

namespace LwObj

/-- Whitespace test used by `split_whitespace`, restricted to the ASCII
whitespace characters (the model of `char::is_whitespace` for the inputs
considered here). -/
def isWs (c : Char) : Bool :=
  c = ' ' || c = '\t' || c = '\n' || c = '\r'

/-- Helper for `wordsL`: accumulates the current (reversed) word while
splitting on whitespace. -/
def wordsAux : List Char → List Char → List (List Char)
  | [], cur => if cur = [] then [] else [cur.reverse]
  | c :: cs, cur =>
    if isWs c then
      if cur = [] then wordsAux cs [] else cur.reverse :: wordsAux cs []
    else wordsAux cs (c :: cur)

/-- Model of `str::split_whitespace`: the maximal non-whitespace runs of a
character list, in order. -/
def wordsL (cs : List Char) : List (List Char) :=
  wordsAux cs []

/-- Model of `str::split('/')`: splits on every `'/'`, keeping empty
fields (`"a//"` gives `["a", "", ""]`). -/
def splitSlash : List Char → List Char → List (List Char)
  | [], cur => [cur.reverse]
  | c :: cs, cur =>
    if c = '/' then cur.reverse :: splitSlash cs [] else splitSlash cs (c :: cur)

/-- Joins tokens with single spaces (the string concatenation used by the
`o` handler: `name += args[0]; for arg { name += " "; name += arg }`). -/
def unwordsL : List (List Char) → List Char
  | [] => []
  | [t] => t
  | t :: ts => t ++ ' ' :: unwordsL ts

/-- Value of a run of decimal digits, most significant first; `none` on a
non-digit. -/
def digitsValAux : List Char → Nat → Option Nat
  | [], acc => some acc
  | c :: cs, acc =>
    if c.isDigit then digitsValAux cs (acc * 10 + (c.toNat - 48)) else none

/-- Value of a non-empty all-digit character list, otherwise `none`. -/
def digitsVal (cs : List Char) : Option Nat :=
  match cs with
  | [] => none
  | _ => digitsValAux cs 0

/-- Width of `usize` (the target is 64-bit). -/
def W : Nat := 2 ^ 64

/-- Strips an optional leading `'+'` sign. -/
def stripPlus : List Char → List Char
  | [] => []
  | c :: rest => if c = '+' then rest else c :: rest

/-- Model of `str::parse::<usize>`: optional leading `'+'`, then one or
more decimal digits, and the value must fit in `usize`. -/
def parseUsizeL (cs : List Char) : Option Nat :=
  match digitsVal (stripPlus cs) with
  | some v => if v < W then some v else none
  | none => none

/-- Wrapping `usize` subtraction of one, as in `val - 1` (release-mode
two's-complement wrap-around for `val = 0`). -/
def usizeSub1 (v : Nat) : Nat :=
  (v + (W - 1)) % W

/-- Wrapping `usize` addition of one, as in `v + 1` during write. -/
def usizeAdd1 (v : Nat) : Nat :=
  (v + 1) % W

/-- Digit character for a value below ten. -/
def digitChar (n : Nat) : Char :=
  Char.ofNat (48 + n)

/-- Fuel-driven decimal rendering of a natural number, most significant
digit first (fuel at least the number of digits; used with fuel `n + 1`). -/
def ntoaAux : Nat → Nat → List Char
  | 0, _ => []
  | fuel + 1, n =>
    if n < 10 then [digitChar n] else ntoaAux fuel (n / 10) ++ [digitChar (n % 10)]

/-- Model of `usize::to_string` / `format!("{}")` on `usize`. -/
def ntoa (n : Nat) : List Char :=
  ntoaAux (n + 1) n

/-- Exponent part of the float grammar: optional sign, then one or more
digits. -/
def f32ExpDigits (cs : List Char) : Bool :=
  let ds := match cs with
    | '+' :: rest => rest
    | '-' :: rest => rest
    | _ => cs
  ds ≠ [] && ds.all Char.isDigit

/-- Optional exponent suffix of the float grammar. -/
def f32ExpOpt (cs : List Char) : Bool :=
  match cs with
  | [] => true
  | 'e' :: r => f32ExpDigits r
  | 'E' :: r => f32ExpDigits r
  | _ => false

/-- Acceptance test of Rust's `f32::from_str` grammar: optional sign, then
`inf`/`infinity`/`nan` (case-insensitive) or a decimal mantissa with
optional fraction and exponent. -/
def f32Grammar (cs : List Char) : Bool :=
  let s1 := match cs with
    | '+' :: rest => rest
    | '-' :: rest => rest
    | _ => cs
  let lower := s1.map Char.toLower
  if lower = "inf".data || lower = "infinity".data || lower = "nan".data then true
  else
    let intd := s1.takeWhile Char.isDigit
    let rest := s1.dropWhile Char.isDigit
    match rest with
    | [] => intd ≠ []
    | '.' :: r2 =>
      let frac := r2.takeWhile Char.isDigit
      let r3 := r2.dropWhile Char.isDigit
      (intd ≠ [] || frac ≠ []) && f32ExpOpt r3
    | 'e' :: r2 => intd ≠ [] && f32ExpDigits r2
    | 'E' :: r2 => intd ≠ [] && f32ExpDigits r2
    | _ => false

/-- Abstraction of the `f32` scalar type: parsing (`str::parse::<f32>`),
formatting (`format!("{}")`), and the literals `1.0` and `0.0` used as
defaults by the `v`/`vt` handlers. -/
structure FloatModel (F : Type) where
  pF : List Char → Option F
  fmt : F → List Char
  one : F
  zero : F

/-- Concrete float model: a value is the accepted token itself (claims in
this development never depend on the numeric value of a float). -/
def f32TokModel : FloatModel String :=
  ⟨fun cs => if f32Grammar cs then some ⟨cs⟩ else none,
   fun s => s.data, "1", "0"⟩

/-- Model of `LoadingError` (the `Io` variant cannot arise in the
I/O-free embedding and is omitted). -/
inductive LoadingError where
  | InvalidLine (nb : Nat)
  | WrongNumberOfArguments (nb : Nat)
  | Parse (nb : Nat)
deriving DecidableEq, Repr

/-- Model of `Group`: a name and a set of face indices (`HashSet<usize>`,
compared as a set). -/
structure Group where
  name : String
  indexes : Finset Nat

/-- Decidable equality of groups, phrased so that concrete instances
reduce inside the kernel (`decide`). -/
instance : DecidableEq Group := fun a b =>
  decidable_of_iff (a.name = b.name ∧ a.indexes = b.indexes)
    (by cases a; cases b; simp)

/-- Model of `Group::new`. -/
def Group.new (n : String) : Group :=
  ⟨n, ∅⟩

/-- Model of `Object`: a name and the ordered list of face indices
belonging to it. -/
structure Object where
  name : String
  primitives : List Nat

/-- Decidable equality of objects, reduction-friendly. -/
instance : DecidableEq Object := fun a b =>
  decidable_of_iff (a.name = b.name ∧ a.primitives = b.primitives)
    (by cases a; cases b; simp)

/-- Model of `Object::new`. -/
def Object.new (n : String) : Object :=
  ⟨n, []⟩

/-- Model of `ObjData`, parametrised by the float abstraction. -/
structure ObjData (F : Type) where
  vertices : List (F × F × F × F)
  normals : List (F × F × F)
  texcoords : List (F × F × F)
  faces : List (List (Nat × Option Nat × Option Nat))
  objects : List Object
  groups : List Group

/-- Decidable equality of scenes, reduction-friendly. -/
instance {F : Type} [DecidableEq F] : DecidableEq (ObjData F) := fun a b =>
  decidable_of_iff
    (a.vertices = b.vertices ∧ a.normals = b.normals ∧ a.texcoords = b.texcoords ∧
      a.faces = b.faces ∧ a.objects = b.objects ∧ a.groups = b.groups)
    (by cases a; cases b; simp)

/-- Model of `ObjData::new`. -/
def ObjData.new (F : Type) : ObjData F :=
  ⟨[], [], [], [], [], []⟩

/-- Decidable equality for `Except` results (kept reduction-friendly: the
casts live inside the proofs, so `decide` can evaluate concrete runs). -/
instance {ε α : Type} [DecidableEq ε] [DecidableEq α] : DecidableEq (Except ε α) :=
  fun a b =>
    match a, b with
    | .ok x, .ok y =>
      match decEq x y with
      | isTrue h => isTrue (by rw [h])
      | isFalse h => isFalse (fun hh => h (Except.ok.inj hh))
    | .error x, .error y =>
      match decEq x y with
      | isTrue h => isTrue (by rw [h])
      | isFalse h => isFalse (fun hh => h (Except.error.inj hh))
    | .ok _, .error _ => isFalse (fun hh => Except.noConfusion hh)
    | .error _, .ok _ => isFalse (fun hh => Except.noConfusion hh)

/-- Running state of the `load` loop: the scene under construction, the
line counter `nb`, the active group indices `actif_groups`, the open
object index `obj`, and the (not always cleared) line buffer `buf`. -/
structure LoadSt (F : Type) where
  data : ObjData F
  nb : Nat
  actif : List Nat
  obj : Option Nat
  buf : List Char

/-- Model of the generic `parse::<T>` helper: parses every token, failing
with `Parse nb` on the first token the float model rejects. -/
def parseAll {F : Type} (M : FloatModel F) (args : List (List Char)) (nb : Nat) :
    Except LoadingError (List F) :=
  match args with
  | [] => .ok []
  | s :: ss =>
    match M.pF s with
    | some v => (parseAll M ss nb).map (fun vs => v :: vs)
    | none => .error (.Parse nb)

/-- Model of the `"v"` branch of `ObjData::load`: all arguments parsed as
floats first, then 4 arguments are taken as given, 3 get `w = 1.0`, and
any other count is `WrongNumberOfArguments`. -/
def handleV {F : Type} (M : FloatModel F) (args : List (List Char)) (st : LoadSt F) :
    Except LoadingError (LoadSt F) :=
  match parseAll M args st.nb with
  | .error e => .error e
  | .ok [a, b, c, d] =>
    .ok { st with data := { st.data with vertices := st.data.vertices ++ [(a, b, c, d)] } }
  | .ok [a, b, c] =>
    .ok { st with data := { st.data with vertices := st.data.vertices ++ [(a, b, c, M.one)] } }
  | .ok _ => .error (.WrongNumberOfArguments st.nb)

/-- Model of the `"vn"` branch: exactly 3 float arguments. -/
def handleVN {F : Type} (M : FloatModel F) (args : List (List Char)) (st : LoadSt F) :
    Except LoadingError (LoadSt F) :=
  match parseAll M args st.nb with
  | .error e => .error e
  | .ok [a, b, c] =>
    .ok { st with data := { st.data with normals := st.data.normals ++ [(a, b, c)] } }
  | .ok _ => .error (.WrongNumberOfArguments st.nb)

/-- Model of the `"vt"` branch: 3, 2 or 1 float arguments, the missing
components defaulting to `0.0`. -/
def handleVT {F : Type} (M : FloatModel F) (args : List (List Char)) (st : LoadSt F) :
    Except LoadingError (LoadSt F) :=
  match parseAll M args st.nb with
  | .error e => .error e
  | .ok [a, b, c] =>
    .ok { st with data := { st.data with texcoords := st.data.texcoords ++ [(a, b, c)] } }
  | .ok [a, b] =>
    .ok { st with data := { st.data with texcoords := st.data.texcoords ++ [(a, b, M.zero)] } }
  | .ok [a] =>
    .ok { st with data := { st.data with texcoords := st.data.texcoords ++ [(a, M.zero, M.zero)] } }
  | .ok _ => .error (.WrongNumberOfArguments st.nb)

/-- Model of the body of the per-argument loop of the `"f"` branch: split
the argument on `'/'`, reject 0 or more than 3 fields, require a parsable
leading index (converted by the wrapping `- 1`), and resolve the optional
second and third fields to `none` whenever absent or unparsable. -/
def parseFaceArg (nb : Nat) (arg : List Char) :
    Except LoadingError (Nat × Option Nat × Option Nat) :=
  let index := splitSlash arg []
  if index.length = 0 ∨ index.length > 3 then .error (.WrongNumberOfArguments nb)
  else
    match parseUsizeL (index.getD 0 []) with
    | none => .error (.Parse nb)
    | some v =>
      let vt := if 2 ≤ index.length then (parseUsizeL (index.getD 1 [])).map usizeSub1 else none
      let vn := if index.length = 3 then (parseUsizeL (index.getD 2 [])).map usizeSub1 else none
      .ok (usizeSub1 v, vt, vn)

/-- Parses every argument of an `f` line in order, failing on the first
erroneous one (the loop of the `"f"` branch). -/
def parseFaceArgs (nb : Nat) (args : List (List Char)) :
    Except LoadingError (List (Nat × Option Nat × Option Nat)) :=
  match args with
  | [] => .ok []
  | a :: as_ =>
    match parseFaceArg nb a with
    | .ok r => (parseFaceArgs nb as_).map (fun rs => r :: rs)
    | .error e => .error e

/-- Appends `idx` to the primitives of the object at position `k`
(`data.objects[obj.unwrap()].primitives.push(...)`). -/
def pushPrim : List Object → Nat → Nat → List Object
  | [], _, _ => []
  | o :: os, 0, idx => { o with primitives := o.primitives ++ [idx] } :: os
  | o :: os, k + 1, idx => o :: pushPrim os k idx

/-- Inserts `idx` into the index set of the group at position `k`
(`data.groups[*g].indexes.insert(...)`). -/
def insGroup : List Group → Nat → Nat → List Group
  | [], _, _ => []
  | g :: gs, 0, idx => { g with indexes := insert idx g.indexes } :: gs
  | g :: gs, k + 1, idx => g :: insGroup gs k idx

/-- Inserts `idx` into every group whose position is listed in `actif`. -/
def insGroups (gs : List Group) (actif : List Nat) (idx : Nat) : List Group :=
  actif.foldl (fun acc k => insGroup acc k idx) gs

/-- Model of the `"f"` branch: fewer than 3 arguments is
`WrongNumberOfArguments`; otherwise the parsed face is appended, an
unnamed object is created lazily if none is open, and the face index is
recorded in the open object and every active group. -/
def handleF {F : Type} (args : List (List Char)) (st : LoadSt F) :
    Except LoadingError (LoadSt F) :=
  if args.length < 3 then .error (.WrongNumberOfArguments st.nb)
  else
    match parseFaceArgs st.nb args with
    | .error e => .error e
    | .ok vec =>
      let faces := st.data.faces ++ [vec]
      let (objects, obj) :=
        match st.obj with
        | none => (st.data.objects ++ [Object.new ""], some st.data.objects.length)
        | some k => (st.data.objects, some k)
      let idx := faces.length - 1
      let objects := pushPrim objects (obj.getD 0) idx
      let groups := insGroups st.data.groups st.actif idx
      .ok { st with
              data := { st.data with faces := faces, objects := objects, groups := groups },
              obj := obj }

/-- Model of the `"o"` branch: at least one argument, the name being the
arguments joined with single spaces; the new object is opened. -/
def handleO {F : Type} (args : List (List Char)) (st : LoadSt F) :
    Except LoadingError (LoadSt F) :=
  match args with
  | [] => .error (.WrongNumberOfArguments st.nb)
  | _ =>
    .ok { st with
            data := { st.data with objects := st.data.objects ++ [Object.new ⟨unwordsL args⟩] },
            obj := some st.data.objects.length }

/-- One argument of the `"g"` branch: every existing group with a
matching name is activated; if none matches, a new empty group is created
and activated. -/
def gArg (acc : List Group × List Nat) (arg : List Char) : List Group × List Nat :=
  let hits := ((acc.1.enum.filter (fun p => p.2.name = (⟨arg⟩ : String))).map Prod.fst)
  if hits = [] then
    (acc.1 ++ [Group.new ⟨arg⟩], acc.2 ++ [acc.1.length])
  else
    (acc.1, acc.2 ++ hits)

/-- Model of the `"g"` branch: the active set is cleared, then each
argument is looked up or created. -/
def handleG {F : Type} (args : List (List Char)) (st : LoadSt F) :
    Except LoadingError (LoadSt F) :=
  let (groups, actif) := args.foldl gArg (st.data.groups, [])
  .ok { st with data := { st.data with groups := groups }, actif := actif }

/-- Dispatch on the directive keyword (the `match identifier.unwrap()` of
the source); an unrecognized keyword is `InvalidLine`. -/
def handle {F : Type} (M : FloatModel F) (id : List Char) (args : List (List Char))
    (st : LoadSt F) : Except LoadingError (LoadSt F) :=
  if id = ['v'] then handleV M args st
  else if id = ['v', 'n'] then handleVN M args st
  else if id = ['v', 't'] then handleVT M args st
  else if id = ['s'] then .ok st
  else if id = ['f'] then handleF args st
  else if id = ['o'] then handleO args st
  else if id = ['g'] then handleG args st
  else .error (.InvalidLine st.nb)

/-- Model of one iteration of the `load` loop.  `read_line` appends the
line plus `'\n'` to `buf`.  A buffer starting with `'#'` is skipped but
still counted (`nb += 1; buf.clear()` run after the `if`).  A token-less
buffer hits `continue`, which skips both the increment and — faithfully
to the source — the `buf.clear()`. -/
def runLine {F : Type} (M : FloatModel F) (st : LoadSt F) (l : String) :
    Except LoadingError (LoadSt F) :=
  let buf := st.buf ++ l.data ++ ['\n']
  if buf.head? = some '#' then
    .ok { st with nb := st.nb + 1, buf := [] }
  else
    match wordsL buf with
    | [] => .ok { st with buf := buf }
    | id :: args =>
      (handle M id args st).map (fun st1 => { st1 with nb := st1.nb + 1, buf := [] })

/-- The `load` loop: processes the lines in order, stopping at the first
error. -/
def loadLines {F : Type} (M : FloatModel F) : List String → LoadSt F →
    Except LoadingError (LoadSt F)
  | [], st => .ok st
  | l :: ls, st =>
    match runLine M st l with
    | .ok st1 => loadLines M ls st1
    | .error e => .error e

/-- The initial state of the `load` loop. -/
def initSt (F : Type) : LoadSt F :=
  ⟨ObjData.new F, 0, [], none, []⟩

/-- Model of `ObjData::load` over the list of input lines (each line
given without its terminating newline). -/
def ObjData.load {F : Type} (M : FloatModel F) (ls : List String) :
    Except LoadingError (ObjData F) :=
  (loadLines M ls (initSt F)).map (fun st => st.data)

/-- Renders one vertex line `format!("v {} {} {} {}", x, y, z, w)`. -/
def vLine {F : Type} (M : FloatModel F) (p : F × F × F × F) : String :=
  ⟨'v' :: ' ' :: M.fmt p.1 ++ ' ' :: M.fmt p.2.1 ++ ' ' :: M.fmt p.2.2.1 ++
    ' ' :: M.fmt p.2.2.2⟩

/-- Renders one normal line `format!("vn {} {} {}", x, y, z)`. -/
def vnLine {F : Type} (M : FloatModel F) (p : F × F × F) : String :=
  ⟨'v' :: 'n' :: ' ' :: M.fmt p.1 ++ ' ' :: M.fmt p.2.1 ++ ' ' :: M.fmt p.2.2⟩

/-- Renders one texcoord line `format!("vt {} {} {}", u, v, w)`. -/
def vtLine {F : Type} (M : FloatModel F) (p : F × F × F) : String :=
  ⟨'v' :: 't' :: ' ' :: M.fmt p.1 ++ ' ' :: M.fmt p.2.1 ++ ' ' :: M.fmt p.2.2⟩

/-- The current group membership of face index `i`: positions of the
groups whose index set contains `i`, in declaration order. -/
def membOf (gs : List Group) (i : Nat) : List Nat :=
  (gs.enum.filter (fun p => i ∈ p.2.indexes)).map Prod.fst

/-- Decimal token of an optional 1-based reference: empty for `none`. -/
def optRefTok : Option Nat → List Char
  | some v => ntoa (usizeAdd1 v)
  | none => []

/-- The `{v+1}/{vt}/{vn}` token of one face-vertex reference. -/
def faceRefTok (r : Nat × Option Nat × Option Nat) : List Char :=
  ntoa (usizeAdd1 r.1) ++ '/' :: optRefTok r.2.1 ++ '/' :: optRefTok r.2.2

/-- Renders one face-vertex argument `format!(" {}/{}/{}", v+1, vt, vn)`,
where absent references render as empty fields. -/
def faceArgStr (r : Nat × Option Nat × Option Nat) : List Char :=
  ' ' :: faceRefTok r

/-- Renders one `f` line. -/
def fLineOf (face : List (Nat × Option Nat × Option Nat)) : String :=
  ⟨'f' :: (face.map faceArgStr).flatten⟩

/-- Renders one `g` line: `"g"` followed by the names of the member
groups (a bare `"g"` for an empty membership). -/
def gLineOf (gs : List Group) (actif : List Nat) : String :=
  ⟨'g' :: (actif.map (fun j => ' ' :: ((gs.getD j (Group.new "")).name).data)).flatten⟩

/-- Face-section lines for one object's primitives, threading the active
membership set; returns the emitted lines and the final active set. -/
def writePrims {F : Type} (d : ObjData F) : List Nat → List Nat → List String × List Nat
  | [], actif => ([], actif)
  | i :: is_, actif =>
    let memb := membOf d.groups i
    let fl := fLineOf (d.faces.getD i [])
    if actif = memb then
      let (ls, a1) := writePrims d is_ actif
      (fl :: ls, a1)
    else
      let (ls, a1) := writePrims d is_ memb
      (gLineOf d.groups memb :: fl :: ls, a1)

/-- Face-section lines for the whole object list: an `o` line for every
non-empty name, then the object's faces; the active membership set
persists from one object to the next. -/
def writeObjs {F : Type} (d : ObjData F) : List Object → List Nat → List String
  | [], _ => []
  | o :: os, actif =>
    let (ls, a1) := writePrims d o.primitives actif
    (if o.name = "" then ls else (⟨'o' :: ' ' :: o.name.data⟩ : String) :: ls) ++
      writeObjs d os a1

/-- Model of `ObjData::write` as the list of emitted lines (each line is
terminated by `"\n"` in the byte stream). -/
def ObjData.write {F : Type} (M : FloatModel F) (d : ObjData F) : List String :=
  d.vertices.map (vLine M) ++ d.normals.map (vnLine M) ++ d.texcoords.map (vtLine M) ++
    writeObjs d d.objects []

/-- Shifts the line index carried by an error by `k` (used to state how a
skipped-but-counted line displaces later error positions). -/
def shiftE (k : Nat) : LoadingError → LoadingError
  | .InvalidLine n => .InvalidLine (n + k)
  | .WrongNumberOfArguments n => .WrongNumberOfArguments (n + k)
  | .Parse n => .Parse (n + k)

/-- The same state with the line counter displaced by `k`. -/
def stShift {F : Type} (k : Nat) (st : LoadSt F) : LoadSt F :=
  { st with nb := st.nb + k }

/-- A well-formed token: non-empty and without whitespace (every token
produced by `split_whitespace` has this shape). -/
def isTok (t : List Char) : Prop :=
  t ≠ [] ∧ ∀ c ∈ t, ¬ isWs c

/-- A name that survives the split-and-rejoin of a `load`/`write` cycle:
it is the single-space join of a non-empty list of tokens (exactly the
names the `o` handler builds). -/
def canonName (s : String) : Prop :=
  wordsL s.data ≠ [] ∧ unwordsL (wordsL s.data) = s.data

/-- Well-formedness of one face: at least three vertex references, and
every stored index fits in `usize`. -/
def faceWF (f : List (Nat × Option Nat × Option Nat)) : Prop :=
  3 ≤ f.length ∧ ∀ r ∈ f, r.1 < W ∧ (∀ v ∈ r.2.1, v < W) ∧ (∀ v ∈ r.2.2, v < W)

/-- Invariants of every scene produced by a successful `load`:
the objects' primitive lists concatenate to `0, 1, …, faces.length - 1`;
only the first object may be unnamed and then owns at least one face;
object names survive re-splitting; group names are unique whitespace-free
tokens; group members are face indices; faces are well formed. -/
def sceneWF {F : Type} (d : ObjData F) : Prop :=
  (d.objects.map Object.primitives).flatten = List.range d.faces.length ∧
  (∀ s ∈ (d.objects.map Object.name).tail, s ≠ "") ∧
  (∀ o ∈ d.objects.head?, o.name = "" → o.primitives ≠ []) ∧
  (∀ s ∈ d.objects.map Object.name, s = "" ∨ canonName s) ∧
  (∀ g ∈ d.groups, isTok g.name.data) ∧
  (d.groups.map Group.name).Nodup ∧
  (∀ g ∈ d.groups, ∀ i ∈ g.indexes, i < d.faces.length) ∧
  (∀ f ∈ d.faces, faceWF f)

/-- Invariant of the `load` loop state: a well-formed scene, the open
object being the most recently created one, and the active groups being
valid positions. -/
def stWF {F : Type} (st : LoadSt F) : Prop :=
  sceneWF st.data ∧
  (match st.obj with
   | none => st.data.objects = []
   | some k => k + 1 = st.data.objects.length) ∧
  (∀ j ∈ st.actif, j < st.data.groups.length)

/-- The order in which groups first become active across the face stream
that `write` emits (faces in object order, membership in declaration
order). -/
def activationOrder {F : Type} (d : ObjData F) : List Nat :=
  ((d.objects.map Object.primitives).flatten).foldl
    (fun acc i => acc ++ (membOf d.groups i).filter (fun j => j ∉ acc)) []

/-- The group list a written scene re-loads to: the groups that own at
least one face, in order of first activation. -/
def reloadGroups {F : Type} (d : ObjData F) : List Group :=
  (activationOrder d).map (fun j => d.groups.getD j (Group.new ""))

/-- Condition under which the group structure itself round-trips: every
group owns a face and the groups first become active in declaration
order. -/
def groupCond {F : Type} (d : ObjData F) : Prop :=
  activationOrder d = List.range d.groups.length

/-- The group a re-load of the written text has built for original group
position `j` after `c` faces: same name, membership restricted to the
first `c` faces. -/
def reGroup {F : Type} (d : ObjData F) (c j : Nat) : Group :=
  ⟨(d.groups.getD j (Group.new "")).name,
    (d.groups.getD j (Group.new "")).indexes.filter (· < c)⟩

/-- First-activation order of the groups over the first `c` faces of the
written face stream. -/
def ordsUpTo {F : Type} (d : ObjData F) (c : Nat) : List Nat :=
  (List.range c).foldl
    (fun acc i => acc ++ (membOf d.groups i).filter (fun j => j ∉ acc)) []

/-- A degenerate float model with a single value rendered as `"0"`; it
satisfies the round-trip and token hypotheses of the serialization
theorems and instantiates them on concrete scenes. -/
def unitModel : FloatModel Unit :=
  ⟨fun s => if s = ['0'] then some () else none, fun _ => ['0'], (), ()⟩

/-! ### Displacing the line counter

Every handler reads the counter only to tag errors, so running from a
state whose counter is displaced by `k` displaces every reported error by
`k` and nothing else. -/

theorem parseAll_shift {F : Type} (M : FloatModel F) (args : List (List Char)) (nb k : Nat) :
    parseAll M args (nb + k) =
      match parseAll M args nb with
      | .ok v => .ok v
      | .error e => .error (shiftE k e) := by
  induction args with
  | nil => rfl
  | cons a as ih =>
    simp only [parseAll]
    cases M.pF a with
    | none => rfl
    | some v =>
      rw [ih]
      cases parseAll M as nb <;> rfl

theorem parseFaceArg_shift (nb k : Nat) (arg : List Char) :
    parseFaceArg (nb + k) arg =
      match parseFaceArg nb arg with
      | .ok r => .ok r
      | .error e => .error (shiftE k e) := by
  unfold parseFaceArg
  by_cases h : (splitSlash arg []).length = 0 ∨ (splitSlash arg []).length > 3
  · simp only [if_pos h]
    rfl
  · simp only [if_neg h]
    cases parseUsizeL ((splitSlash arg []).getD 0 []) <;> rfl

theorem parseFaceArgs_shift (nb k : Nat) (args : List (List Char)) :
    parseFaceArgs (nb + k) args =
      match parseFaceArgs nb args with
      | .ok v => .ok v
      | .error e => .error (shiftE k e) := by
  induction args with
  | nil => rfl
  | cons a as ih =>
    simp only [parseFaceArgs, parseFaceArg_shift]
    cases parseFaceArg nb a with
    | error e => rfl
    | ok r =>
      rw [ih]
      cases parseFaceArgs nb as <;> rfl

theorem handleV_shift {F : Type} (M : FloatModel F) (args : List (List Char))
    (st : LoadSt F) (k : Nat) :
    handleV M args (stShift k st) =
      match handleV M args st with
      | .ok s => .ok (stShift k s)
      | .error e => .error (shiftE k e) := by
  unfold handleV
  have hnb : (stShift k st).nb = st.nb + k := rfl
  rw [hnb, parseAll_shift]
  cases parseAll M args st.nb with
  | error e => rfl
  | ok values =>
    rcases values with _ | ⟨a, _ | ⟨b, _ | ⟨c, _ | ⟨d, _ | ⟨e, rest⟩⟩⟩⟩⟩ <;> rfl

theorem handleVN_shift {F : Type} (M : FloatModel F) (args : List (List Char))
    (st : LoadSt F) (k : Nat) :
    handleVN M args (stShift k st) =
      match handleVN M args st with
      | .ok s => .ok (stShift k s)
      | .error e => .error (shiftE k e) := by
  unfold handleVN
  have hnb : (stShift k st).nb = st.nb + k := rfl
  rw [hnb, parseAll_shift]
  cases parseAll M args st.nb with
  | error e => rfl
  | ok values =>
    rcases values with _ | ⟨a, _ | ⟨b, _ | ⟨c, _ | ⟨d, rest⟩⟩⟩⟩ <;> rfl

theorem handleVT_shift {F : Type} (M : FloatModel F) (args : List (List Char))
    (st : LoadSt F) (k : Nat) :
    handleVT M args (stShift k st) =
      match handleVT M args st with
      | .ok s => .ok (stShift k s)
      | .error e => .error (shiftE k e) := by
  unfold handleVT
  have hnb : (stShift k st).nb = st.nb + k := rfl
  rw [hnb, parseAll_shift]
  cases parseAll M args st.nb with
  | error e => rfl
  | ok values =>
    rcases values with _ | ⟨a, _ | ⟨b, _ | ⟨c, _ | ⟨d, rest⟩⟩⟩⟩ <;> rfl

theorem handleF_shift {F : Type} (args : List (List Char)) (st : LoadSt F) (k : Nat) :
    handleF (F := F) args (stShift k st) =
      match handleF (F := F) args st with
      | .ok s => .ok (stShift k s)
      | .error e => .error (shiftE k e) := by
  unfold handleF
  have hnb : (stShift k st).nb = st.nb + k := rfl
  rw [hnb, parseFaceArgs_shift]
  split
  · rfl
  · cases parseFaceArgs st.nb args <;> rfl

theorem handleO_shift {F : Type} (args : List (List Char)) (st : LoadSt F) (k : Nat) :
    handleO (F := F) args (stShift k st) =
      match handleO (F := F) args st with
      | .ok s => .ok (stShift k s)
      | .error e => .error (shiftE k e) := by
  cases args <;> rfl

theorem handleG_shift {F : Type} (args : List (List Char)) (st : LoadSt F) (k : Nat) :
    handleG (F := F) args (stShift k st) =
      match handleG (F := F) args st with
      | .ok s => .ok (stShift k s)
      | .error e => .error (shiftE k e) := by
  rfl

theorem handle_shift {F : Type} (M : FloatModel F) (id : List Char)
    (args : List (List Char)) (st : LoadSt F) (k : Nat) :
    handle M id args (stShift k st) =
      match handle M id args st with
      | .ok s => .ok (stShift k s)
      | .error e => .error (shiftE k e) := by
  unfold handle
  split_ifs
  · exact handleV_shift M args st k
  · exact handleVN_shift M args st k
  · exact handleVT_shift M args st k
  · rfl
  · exact handleF_shift args st k
  · exact handleO_shift args st k
  · exact handleG_shift args st k
  · rfl

theorem runLine_shift {F : Type} (M : FloatModel F) (st : LoadSt F) (l : String) (k : Nat) :
    runLine M (stShift k st) l =
      match runLine M st l with
      | .ok s => .ok (stShift k s)
      | .error e => .error (shiftE k e) := by
  unfold runLine
  have hbuf : (stShift k st).buf = st.buf := rfl
  rw [hbuf]
  by_cases hc : (st.buf ++ l.data ++ ['\n']).head? = some '#'
  · simp only [if_pos hc, stShift, Nat.add_right_comm]
  · simp only [if_neg hc]
    cases wordsL (st.buf ++ l.data ++ ['\n']) with
    | nil => rfl
    | cons id args =>
      simp only [handle_shift]
      cases handle M id args st with
      | error e => rfl
      | ok s =>
        simp only [Except.map, stShift, Nat.add_right_comm]

theorem loadLines_shift {F : Type} (M : FloatModel F) (ls : List String)
    (st : LoadSt F) (k : Nat) :
    loadLines M ls (stShift k st) =
      match loadLines M ls st with
      | .ok s => .ok (stShift k s)
      | .error e => .error (shiftE k e) := by
  induction ls generalizing st with
  | nil => rfl
  | cons l ls ih =>
    simp only [loadLines, runLine_shift]
    cases runLine M st l with
    | error e => rfl
    | ok s => exact ih s

/-! ### Small parsing facts -/

theorem splitSlash_ne_nil (cs acc : List Char) : splitSlash cs acc ≠ [] := by
  induction cs generalizing acc with
  | nil => simp [splitSlash]
  | cons c cs ih =>
    unfold splitSlash
    by_cases h : c = '/'
    · simp [h]
    · simpa [h] using ih (c :: acc)

theorem parseUsizeL_lt {cs : List Char} {v : Nat} (h : parseUsizeL cs = some v) : v < W := by
  unfold parseUsizeL at h
  rcases hd : digitsVal (stripPlus cs) with _ | w
  · rw [hd] at h
    cases h
  · rw [hd] at h
    change (if w < W then some w else none) = some v at h
    by_cases hw : w < W
    · rw [if_pos hw] at h
      cases h
      exact hw
    · rw [if_neg hw] at h
      cases h

theorem usizeSub1_succ {v : Nat} (h : v + 1 < W) : usizeSub1 (v + 1) = v := by
  unfold usizeSub1
  have h1 : 1 ≤ W := by norm_num [W]
  have : v + 1 + (W - 1) = v + W := by omega
  rw [this, Nat.add_mod_right]
  exact Nat.mod_eq_of_lt (by omega)

theorem usizeSub1_zero : usizeSub1 0 = 2 ^ 64 - 1 := by
  unfold usizeSub1 W
  norm_num

theorem parseAll_error_of_mem {F : Type} (M : FloatModel F) {args : List (List Char)}
    (nb : Nat) (h : ∃ a ∈ args, M.pF a = none) :
    parseAll M args nb = .error (.Parse nb) := by
  induction args with
  | nil => simp at h
  | cons a as ih =>
    obtain ⟨t, ht, hpt⟩ := h
    unfold parseAll
    cases hmem : M.pF a with
    | none => rfl
    | some v =>
      rcases List.mem_cons.mp ht with rfl | hts
      · rw [hmem] at hpt
        cases hpt
      · rw [ih ⟨t, hts, hpt⟩]
        rfl

/-! ### Claims C2, C3, C6, C10 -/

/-- C2, counterexample.  The claim states that a line starting with `#`
does not increment the line counter, so that inserting a comment line
leaves later error indices unchanged.  The code increments `nb` for
comment lines as well (`nb += 1` runs after the `#` test), so inserting
`"# c"` moves the `InvalidLine` index of the following bad line from 0
to 1. -/
theorem lw_c2_counterexample :
    ObjData.load f32TokModel ["az 1"] = .error (.InvalidLine 0) ∧
    ObjData.load f32TokModel ["# c", "az 1"] = .error (.InvalidLine 1) := by
  constructor
  · decide
  · decide

/-- C2, amended.  A line whose first character is `#` is skipped as a
directive (it can neither fail nor touch the scene) but its line is
counted: prepending a comment line leaves a successful result unchanged
and displaces every reported error index by exactly one. -/
theorem lw_c2_amended {F : Type} (M : FloatModel F) (l : String) (ls : List String)
    (h : l.data.head? = some '#') :
    ObjData.load M (l :: ls) =
      match ObjData.load M ls with
      | .ok d => .ok d
      | .error e => .error (shiftE 1 e) := by
  obtain ⟨t, ht⟩ : ∃ t, l.data = '#' :: t := by
    rcases hld : l.data with _ | ⟨c, rest⟩
    · rw [hld] at h
      cases h
    · rw [hld] at h
      refine ⟨rest, ?_⟩
      injection h with h1
      rw [h1]
  simp only [ObjData.load, loadLines]
  have hr : runLine M (initSt F) l = .ok (stShift 1 (initSt F)) := by
    unfold runLine initSt stShift
    simp [ht]
  rw [hr]
  show Except.map (fun st => st.data) (loadLines M ls (stShift 1 (initSt F))) = _
  rw [loadLines_shift]
  cases loadLines M ls (initSt F) with
  | ok s => rfl
  | error e => rfl

/-- C2 amended, witness: prepending `"# hello"` to the document
`["az 1"]` shifts the `InvalidLine` index from 0 to 1. -/
theorem lw_c2_amended_witness :
    ObjData.load f32TokModel ["# hello", "az 1"] =
      match ObjData.load f32TokModel ["az 1"] with
      | .ok d => .ok d
      | .error e => .error (shiftE 1 e) :=
  lw_c2_amended f32TokModel "# hello" ["az 1"] (by decide)

/-- C3, the slip in the code: the claim (and the spec) say a
whitespace-only line is skipped with no effect at all, but the `continue`
taken for a token-less line skips `buf.clear()`, so the leftover
whitespace is still in the buffer when the next line is read.  The next
line's leading `#` is then no longer the first character of the buffer: a
comment following a blank line is parsed as a directive and rejected.
The blank line alone is indeed skipped without counting (last
conjunct). -/
theorem lw_c3_code_evaluation :
    ObjData.load f32TokModel ["# c"] = .ok (ObjData.new String) ∧
    ObjData.load f32TokModel ["", "# c"] = .error (.InvalidLine 0) ∧
    ObjData.load f32TokModel ["   ", "# c"] = .error (.InvalidLine 0) ∧
    ObjData.load f32TokModel ["   ", "az 1"] = .error (.InvalidLine 0) := by
  refine ⟨by decide, by decide, by decide, by decide⟩

/-- C6.  Any `vn` line containing a token the float model rejects fails
with `Parse` at the current line, whatever the argument count (the
count check only runs after all tokens parsed); concretely
`vn -1 -1d 1` fails with `Parse` at its line index, also when the
argument count (2 here) is wrong as well. -/
theorem lw_c6_vn_parse_precedence :
    (∀ (F : Type) (M : FloatModel F) (args : List (List Char)) (st : LoadSt F),
        (∃ a ∈ args, M.pF a = none) →
        handleVN M args st = .error (.Parse st.nb)) ∧
    ObjData.load f32TokModel ["vn -1 -1d 1"] = .error (.Parse 0) ∧
    ObjData.load f32TokModel ["o X", "vn -1 -1d 1"] = .error (.Parse 1) ∧
    ObjData.load f32TokModel ["vn -1 -1d"] = .error (.Parse 0) := by
  refine ⟨?_, by decide, by decide, by decide⟩
  intro F M args st h
  unfold handleVN
  rw [parseAll_error_of_mem M st.nb h]

/-- C6, witness: the general part applied to the tokens of
`vn -1 -1d 1` under the concrete float model. -/
theorem lw_c6_witness :
    handleVN f32TokModel ["-1".data, "-1d".data, "1".data] (initSt String) =
      .error (.Parse 0) :=
  lw_c6_vn_parse_precedence.1 String f32TokModel _ _ ⟨"-1d".data, by decide, by decide⟩

/-- C10.  A face-reference whose leading index token parses to `0` takes
no error branch: the conversion `val - 1` wraps around `usize`
arithmetic, storing `2^64 - 1`.  Concretely `f 0 2 3` loads successfully
(no error value) with `2^64 - 1` as the first vertex index. -/
theorem lw_c10_zero_underflow :
    (∀ (nb : Nat) (arg : List Char),
        (splitSlash arg []).length ≤ 3 →
        parseUsizeL ((splitSlash arg []).getD 0 []) = some 0 →
        ∃ vt vn, parseFaceArg nb arg = .ok (2 ^ 64 - 1, vt, vn)) ∧
    ObjData.load f32TokModel ["f 0 2 3"] =
      .ok ⟨[], [], [],
           [[(2 ^ 64 - 1, none, none), (1, none, none), (2, none, none)]],
           [⟨"", [0]⟩], []⟩ ∧
    (∀ e, ObjData.load f32TokModel ["f 0 2 3"] ≠ .error e) := by
  refine ⟨?_, by decide, ?_⟩
  · intro nb arg hlen h0
    have hne : ¬((splitSlash arg []).length = 0 ∨ (splitSlash arg []).length > 3) := by
      push_neg
      exact ⟨fun hz => splitSlash_ne_nil arg [] (List.length_eq_zero.mp hz), hlen⟩
    unfold parseFaceArg
    simp only [if_neg hne, h0, usizeSub1_zero]
    exact ⟨_, _, rfl⟩
  · intro e h
    have : ObjData.load f32TokModel ["f 0 2 3"] =
        .ok ⟨[], [], [],
             [[(2 ^ 64 - 1, none, none), (1, none, none), (2, none, none)]],
             [⟨"", [0]⟩], []⟩ := by decide
    rw [this] at h
    cases h

/-- C10, witness: the general part applied to the argument `"0"`. -/
theorem lw_c10_witness :
    ∃ vt vn, parseFaceArg 0 ['0'] = .ok (2 ^ 64 - 1, vt, vn) :=
  lw_c10_zero_underflow.1 0 ['0'] (by decide) (by decide)

/-! ### Claims C4 and C5 -/

/-- C4.  For a face argument with exactly three slash fields whose
leading field parses as the positive integer `v + 1`, the stored vertex
index is `v` (external minus one) and the optional fields are
`(parseUsizeL field).map usizeSub1`, which is `none` for an empty field
(`parseUsizeL [] = none`); concretely `f 2//1 4//1 1//1` parses to
`[(1, none, some 0), (3, none, some 0), (0, none, some 0)]`. -/
theorem lw_c4_face_line :
    (∀ (nb : Nat) (arg a b c : List Char) (v : Nat),
        splitSlash arg [] = [a, b, c] →
        parseUsizeL a = some (v + 1) →
        parseFaceArg nb arg =
          .ok (v, (parseUsizeL b).map usizeSub1, (parseUsizeL c).map usizeSub1)) ∧
    parseUsizeL [] = none ∧
    (ObjData.load f32TokModel ["f 2//1 4//1 1//1"]).map ObjData.faces =
      .ok [[(1, none, some 0), (3, none, some 0), (0, none, some 0)]] := by
  refine ⟨?_, by decide, by decide⟩
  intro nb arg a b c v hs hp
  have hlen : (splitSlash arg []).length = 3 := by rw [hs]; rfl
  have hne : ¬((splitSlash arg []).length = 0 ∨ (splitSlash arg []).length > 3) := by
    rw [hlen]
    norm_num
  unfold parseFaceArg
  rw [if_neg hne, hs]
  show (match parseUsizeL a with
        | none => Except.error (LoadingError.Parse nb)
        | some v => _) = _
  rw [hp]
  have hv : v + 1 < W := parseUsizeL_lt hp
  simp only [usizeSub1_succ hv, hlen, hs]
  rfl

/-- C4, witness: the general part applied to the argument `2//1`. -/
theorem lw_c4_witness :
    parseFaceArg 0 "2//1".data =
      .ok (1, (parseUsizeL [] ).map usizeSub1, (parseUsizeL ['1']).map usizeSub1) :=
  lw_c4_face_line.1 0 "2//1".data ['2'] [] ['1'] 1 (by decide) (by decide)

/-- C5.  For a face argument with 1 to 3 slash fields and a parsable
leading index, no error is possible: the optional fields resolve to
`none` whenever absent or unparsable.  An unparsable leading field gives
`Parse` at the current line, and an `f` line with fewer than 3 arguments
gives `WrongNumberOfArguments` before any argument is examined. -/
theorem lw_c5_face_error_paths :
    (∀ (nb : Nat) (arg : List Char) (v : Nat),
        (splitSlash arg []).length ≤ 3 →
        parseUsizeL ((splitSlash arg []).getD 0 []) = some v →
        ∃ vt vn,
          parseFaceArg nb arg = .ok (usizeSub1 v, vt, vn) ∧
          ((splitSlash arg []).length < 2 ∨
              parseUsizeL ((splitSlash arg []).getD 1 []) = none → vt = none) ∧
          ((splitSlash arg []).length ≠ 3 ∨
              parseUsizeL ((splitSlash arg []).getD 2 []) = none → vn = none)) ∧
    (∀ (nb : Nat) (arg : List Char),
        (splitSlash arg []).length ≤ 3 →
        parseUsizeL ((splitSlash arg []).getD 0 []) = none →
        parseFaceArg nb arg = .error (.Parse nb)) ∧
    (∀ (F : Type) (args : List (List Char)) (st : LoadSt F),
        args.length < 3 →
        handleF (F := F) args st = .error (.WrongNumberOfArguments st.nb)) := by
  refine ⟨?_, ?_, ?_⟩
  · intro nb arg v hlen h0
    have hne : ¬((splitSlash arg []).length = 0 ∨ (splitSlash arg []).length > 3) := by
      push_neg
      exact ⟨fun hz => splitSlash_ne_nil arg [] (List.length_eq_zero.mp hz), hlen⟩
    unfold parseFaceArg
    simp only [if_neg hne, h0]
    refine ⟨_, _, rfl, ?_, ?_⟩
    · intro h
      rcases h with h | h
      · rw [if_neg (by omega)]
      · by_cases h2 : 2 ≤ (splitSlash arg []).length
        · rw [if_pos h2, h]
          rfl
        · rw [if_neg h2]
    · intro h
      rcases h with h | h
      · rw [if_neg h]
      · by_cases h3 : (splitSlash arg []).length = 3
        · rw [if_pos h3, h]
          rfl
        · rw [if_neg h3]
  · intro nb arg hlen h0
    have hne : ¬((splitSlash arg []).length = 0 ∨ (splitSlash arg []).length > 3) := by
      push_neg
      exact ⟨fun hz => splitSlash_ne_nil arg [] (List.length_eq_zero.mp hz), hlen⟩
    unfold parseFaceArg
    simp only [if_neg hne, h0]
  · intro F args st hlt
    unfold handleF
    rw [if_pos hlt]

/-- C5, witness: the first part applied to the argument `1/x/`, whose
unparsable texcoord field and empty normal field both resolve to
`none`. -/
theorem lw_c5_witness :
    ∃ vt vn,
      parseFaceArg 0 "1/x/".data = .ok (usizeSub1 1, vt, vn) ∧
      ((splitSlash "1/x/".data []).length < 2 ∨
          parseUsizeL ((splitSlash "1/x/".data []).getD 1 []) = none → vt = none) ∧
      ((splitSlash "1/x/".data []).length ≠ 3 ∨
          parseUsizeL ((splitSlash "1/x/".data []).getD 2 []) = none → vn = none) :=
  lw_c5_face_error_paths.1 0 "1/x/".data 1 (by decide) (by decide)

/-! ### Group lookup and insertion lemmas -/

theorem filter_name_eq_nil {n : String} {gs : List Group} (k : Nat)
    (h : ∀ g ∈ gs, g.name ≠ n) :
    (gs.enumFrom k).filter (fun p => p.2.name = n) = [] := by
  induction gs generalizing k with
  | nil => rfl
  | cons g gs ih =>
    have hg : g.name ≠ n := h g (List.mem_cons_self g gs)
    simp only [List.enumFrom_cons, List.filter_cons]
    simp [hg, ih (k + 1) (fun g' hg' => h g' (List.mem_cons_of_mem _ hg'))]

theorem mem_of_getD {gs : List Group} {i : Nat} (d : Group) (hi : i < gs.length) :
    gs.getD i d ∈ gs := by
  rw [List.getD_eq_getElem?_getD, List.getElem?_eq_getElem hi]
  exact List.getElem_mem _

theorem filter_name_eq_single {d : Group} {n : String} {gs : List Group} {i : Nat} (k : Nat)
    (hnodup : (gs.map Group.name).Nodup)
    (hi : i < gs.length)
    (hname : (gs.getD i d).name = n) :
    ((gs.enumFrom k).filter (fun p => p.2.name = n)).map Prod.fst = [k + i] := by
  induction gs generalizing k i with
  | nil => simp at hi
  | cons g gs ih =>
    rw [List.map_cons, List.nodup_cons] at hnodup
    obtain ⟨hn1, hn2⟩ := hnodup
    cases i with
    | zero =>
      rw [List.getD_cons_zero] at hname
      have hrest : (gs.enumFrom (k + 1)).filter (fun p => p.2.name = n) = [] := by
        refine filter_name_eq_nil (k + 1) (fun g' hg' => ?_)
        intro hg'n
        exact hn1 (hname ▸ hg'n ▸ List.mem_map_of_mem Group.name hg')
      simp [List.enumFrom_cons, List.filter_cons, hname, hrest]
    | succ i' =>
      rw [List.getD_cons_succ] at hname
      have hi' : i' < gs.length := by simpa using hi
      have hg : g.name ≠ n := by
        intro hgn
        refine hn1 ?_
        rw [hgn, ← hname]
        exact List.mem_map_of_mem Group.name (mem_of_getD d hi')
      simp only [List.enumFrom_cons, List.filter_cons]
      have : k + (i' + 1) = (k + 1) + i' := by omega
      simp [hg, ih (k + 1) hn2 hi' hname, this]

theorem insGroup_length (gs : List Group) (kk idx : Nat) :
    (insGroup gs kk idx).length = gs.length := by
  induction gs generalizing kk with
  | nil => rfl
  | cons g gs ih =>
    cases kk with
    | zero => rfl
    | succ k => simp [insGroup, ih k]

theorem insGroup_getD (gs : List Group) (kk idx j : Nat) (d : Group) (hj : j < gs.length) :
    (insGroup gs kk idx).getD j d =
      if j = kk then
        { gs.getD j d with indexes := insert idx (gs.getD j d).indexes }
      else gs.getD j d := by
  induction gs generalizing kk j with
  | nil => simp at hj
  | cons g gs ih =>
    cases kk with
    | zero =>
      cases j with
      | zero => simp [insGroup]
      | succ j' => simp [insGroup]
    | succ k =>
      cases j with
      | zero => simp [insGroup]
      | succ j' =>
        have hj' : j' < gs.length := by simpa using hj
        simp only [insGroup, List.getD_cons_succ]
        rw [ih k j' hj']
        by_cases h : j' = k
        · simp [h]
        · simp [h, fun hh => h (Nat.succ_injective hh)]

theorem insGroups_length (gs : List Group) (actif : List Nat) (idx : Nat) :
    (insGroups gs actif idx).length = gs.length := by
  induction actif generalizing gs with
  | nil => rfl
  | cons k ks ih =>
    show (insGroups (insGroup gs k idx) ks idx).length = _
    rw [ih, insGroup_length]

theorem insGroups_getD (gs : List Group) (actif : List Nat) (idx j : Nat) (d : Group)
    (hj : j < gs.length) :
    (insGroups gs actif idx).getD j d =
      if j ∈ actif then
        { gs.getD j d with indexes := insert idx (gs.getD j d).indexes }
      else gs.getD j d := by
  induction actif generalizing gs with
  | nil => simp [insGroups]
  | cons k ks ih =>
    show (insGroups (insGroup gs k idx) ks idx).getD j d = _
    rw [ih (insGroup gs k idx) (by rw [insGroup_length]; exact hj),
        insGroup_getD gs k idx j d hj]
    by_cases hjk : j = k
    · by_cases hks : j ∈ ks
      · simp [hjk, hks, Finset.insert_idem]
      · simp [hjk, hks]
    · by_cases hks : j ∈ ks
      · simp [hjk, hks]
      · simp [hjk, hks]

/-! ### Claim C7 -/

/-- C7.  The `g` directive with no argument clears the active set and
cannot fail; an argument naming an existing group (names are unique)
reactivates exactly that group, leaving every group's contents alone; an
argument naming no existing group appends a fresh empty group and
activates it; a successful `f` adds the new face index to exactly the
active groups—membership accumulates additively, never retroactively.
The repo's worked example (`load_group`) evaluates as claimed. -/
theorem lw_c7_group_semantics :
    (∀ (F : Type) (st : LoadSt F), handleG (F := F) [] st = .ok { st with actif := [] }) ∧
    (∀ (F : Type) (st : LoadSt F) (n : List Char) (i : Nat) (d : Group),
        (st.data.groups.map Group.name).Nodup →
        i < st.data.groups.length →
        (st.data.groups.getD i d).name = (⟨n⟩ : String) →
        handleG (F := F) [n] st = .ok { st with actif := [i] }) ∧
    (∀ (F : Type) (st : LoadSt F) (n : List Char),
        (∀ g ∈ st.data.groups, g.name ≠ (⟨n⟩ : String)) →
        handleG (F := F) [n] st =
          .ok { st with
                  data := { st.data with
                              groups := st.data.groups ++ [Group.new ⟨n⟩] },
                  actif := [st.data.groups.length] }) ∧
    (∀ (F : Type) (args : List (List Char)) (st st' : LoadSt F),
        handleF (F := F) args st = .ok st' →
        ∀ (j : Nat) (d : Group), j < st.data.groups.length →
          st'.data.groups.getD j d =
            if j ∈ st.actif then
              { st.data.groups.getD j d with
                  indexes := insert st.data.faces.length (st.data.groups.getD j d).indexes }
            else st.data.groups.getD j d) ∧
    (ObjData.load f32TokModel
        ["g gr1 gr2", "f 2//1 4//1 1//1", "f 8 6 5", "g gr1", "f 4// 5// 6//",
         "f 8/3/2 6/5/3 5/7/1", "g gr3", "f 9/4/ 7/3/ 3/2/", "g gr2",
         "f 9/4/ 7/3/ 3/2/"]).map ObjData.groups =
      .ok [⟨"gr1", {0, 1, 2, 3}⟩, ⟨"gr2", {0, 1, 5}⟩, ⟨"gr3", {4}⟩] := by
  refine ⟨fun F st => rfl, ?_, ?_, ?_, by decide⟩
  · intro F st n i d hnodup hi hname
    unfold handleG
    simp only [List.foldl_cons, List.foldl_nil]
    unfold gArg
    have hh : ((st.data.groups.enum.filter
        (fun p => p.2.name = (⟨n⟩ : String))).map Prod.fst) = [i] := by
      show ((st.data.groups.enumFrom 0).filter
          (fun p => p.2.name = (⟨n⟩ : String))).map Prod.fst = [i]
      simpa using filter_name_eq_single 0 hnodup hi hname
    rw [hh]
    rw [if_neg (by simp)]
    rfl
  · intro F st n h
    unfold handleG
    simp only [List.foldl_cons, List.foldl_nil]
    unfold gArg
    rw [show st.data.groups.enum = st.data.groups.enumFrom 0 from rfl,
        filter_name_eq_nil 0 h]
    rfl
  · intro F args st st' h j d hj
    unfold handleF at h
    by_cases hlen : args.length < 3
    · rw [if_pos hlen] at h
      cases h
    · rw [if_neg hlen] at h
      cases hp : parseFaceArgs st.nb args with
      | error e =>
        rw [hp] at h
        cases h
      | ok vec =>
        rw [hp] at h
        cases ho : st.obj with
        | none =>
          rw [ho] at h
          injection h with h1
          rw [← h1]
          show (insGroups st.data.groups st.actif
              ((st.data.faces ++ [vec]).length - 1)).getD j d = _
          rw [show (st.data.faces ++ [vec]).length - 1 = st.data.faces.length by
            simp]
          exact insGroups_getD st.data.groups st.actif st.data.faces.length j d hj
        | some k =>
          rw [ho] at h
          injection h with h1
          rw [← h1]
          show (insGroups st.data.groups st.actif
              ((st.data.faces ++ [vec]).length - 1)).getD j d = _
          rw [show (st.data.faces ++ [vec]).length - 1 = st.data.faces.length by
            simp]
          exact insGroups_getD st.data.groups st.actif st.data.faces.length j d hj

/-- C7, witness: the reactivation part applied to a concrete state with
groups `a`, `b`: `g b` reactivates group 1 without touching contents. -/
theorem lw_c7_witness :
    handleG (F := String)
        ["b".data]
        ⟨⟨[], [], [], [], [], [⟨"a", ∅⟩, ⟨"b", {7}⟩]⟩, 0, [0], none, []⟩ =
      .ok ⟨⟨[], [], [], [], [], [⟨"a", ∅⟩, ⟨"b", {7}⟩]⟩, 0, [1], none, []⟩ := by
  have h := lw_c7_group_semantics.2.1 String
      ⟨⟨[], [], [], [], [], [⟨"a", ∅⟩, ⟨"b", {7}⟩]⟩, 0, [0], none, []⟩
      "b".data 1 (Group.new "") (by decide) (by decide) (by decide)
  exact h

/-! ### Ordered membership lists -/

theorem membOf_sorted (gs : List Group) (i : Nat) : (membOf gs i).Pairwise (· < ·) := by
  unfold membOf
  have h1 : List.Sublist (gs.enum.filter (fun p => i ∈ p.2.indexes)) gs.enum :=
    List.filter_sublist _
  have h2 : List.Sublist ((gs.enum.filter (fun p => i ∈ p.2.indexes)).map Prod.fst)
      (gs.enum.map Prod.fst) := h1.map Prod.fst
  have h3 : (gs.enum.map Prod.fst).Pairwise (· < ·) := by
    rw [show gs.enum = gs.enumFrom 0 from rfl, List.enumFrom_map_fst]
    exact List.pairwise_lt_range' 0 gs.length 1 (by simp)
  exact List.Pairwise.sublist h2 h3

theorem mem_membOf (d : Group) {gs : List Group} {i j : Nat} :
    j ∈ membOf gs i ↔ j < gs.length ∧ i ∈ (gs.getD j d).indexes := by
  unfold membOf
  simp only [List.mem_map, List.mem_filter]
  constructor
  · rintro ⟨⟨k, g⟩, ⟨hmem, hin⟩, rfl⟩
    have hk := List.mem_enum_iff_get?.mp hmem
    have hklt : k < gs.length := by
      rw [List.get?_eq_getElem?] at hk
      exact List.getElem?_eq_some.mp hk |>.1
    refine ⟨hklt, ?_⟩
    have : gs.getD k d = g := by
      rw [List.getD_eq_getElem?_getD, ← List.get?_eq_getElem?, hk]
      rfl
    rw [this]
    simpa using hin
  · rintro ⟨hj, hin⟩
    refine ⟨(j, gs.getD j d), ⟨?_, by simpa using hin⟩, rfl⟩
    rw [List.mem_enum_iff_get?, List.get?_eq_getElem?, List.getElem?_eq_getElem hj]
    simp [List.getD_eq_getElem?_getD, List.getElem?_eq_getElem hj]

theorem sorted_lt_eq : ∀ {l1 l2 : List Nat},
    l1.Pairwise (· < ·) → l2.Pairwise (· < ·) → (∀ x, x ∈ l1 ↔ x ∈ l2) → l1 = l2
  | [], [], _, _, _ => rfl
  | [], b :: l2, _, _, hm => absurd ((hm b).mpr (List.mem_cons_self b l2)) (List.not_mem_nil b)
  | a :: l1, [], _, _, hm => absurd ((hm a).mp (List.mem_cons_self a l1)) (List.not_mem_nil a)
  | a :: l1, b :: l2, h1, h2, hm => by
    rw [List.pairwise_cons] at h1 h2
    obtain ⟨ha, h1'⟩ := h1
    obtain ⟨hb, h2'⟩ := h2
    have hab : a = b := by
      have hain : a ∈ b :: l2 := (hm a).mp (List.mem_cons_self a l1)
      have hbin : b ∈ a :: l1 := (hm b).mpr (List.mem_cons_self b l2)
      rcases List.mem_cons.mp hain with h | h
      · exact h
      · rcases List.mem_cons.mp hbin with h' | h'
        · exact h'.symm
        · exact absurd (Nat.lt_trans (hb a h) (ha b h')) (Nat.lt_irrefl b)
    subst hab
    have : l1 = l2 := by
      refine sorted_lt_eq h1' h2' (fun x => ⟨fun hx => ?_, fun hx => ?_⟩)
      · rcases List.mem_cons.mp ((hm x).mp (List.mem_cons_of_mem a hx)) with h | h
        · exact absurd (h ▸ ha x hx) (Nat.lt_irrefl _)
        · exact h
      · rcases List.mem_cons.mp ((hm x).mpr (List.mem_cons_of_mem a hx)) with h | h
        · exact absurd (h ▸ hb x hx) (Nat.lt_irrefl _)
        · exact h
    rw [this]

theorem sorted_lt_eq_iff_toFinset {l1 l2 : List Nat}
    (h1 : l1.Pairwise (· < ·)) (h2 : l2.Pairwise (· < ·)) :
    l1 = l2 ↔ l1.toFinset = l2.toFinset := by
  constructor
  · rintro rfl
    rfl
  · intro h
    refine sorted_lt_eq h1 h2 (fun x => ?_)
    rw [← List.mem_toFinset, ← List.mem_toFinset (l := l2), h]

theorem writePrims_cons {F : Type} (d : ObjData F) (i : Nat) (is actif : List Nat) :
    writePrims d (i :: is) actif =
      if actif = membOf d.groups i then
        (fLineOf (d.faces.getD i []) :: (writePrims d is actif).1,
          (writePrims d is actif).2)
      else
        (gLineOf d.groups (membOf d.groups i) :: fLineOf (d.faces.getD i []) ::
            (writePrims d is (membOf d.groups i)).1,
          (writePrims d is (membOf d.groups i)).2) := by
  show (if actif = membOf d.groups i then
        match writePrims d is actif with
        | (ls, a1) => (fLineOf (d.faces.getD i []) :: ls, a1)
      else
        match writePrims d is (membOf d.groups i) with
        | (ls, a1) =>
          (gLineOf d.groups (membOf d.groups i) :: fLineOf (d.faces.getD i []) :: ls, a1)) =
      if actif = membOf d.groups i then
        (fLineOf (d.faces.getD i []) :: (writePrims d is actif).1,
          (writePrims d is actif).2)
      else
        (gLineOf d.groups (membOf d.groups i) :: fLineOf (d.faces.getD i []) ::
            (writePrims d is (membOf d.groups i)).1,
          (writePrims d is (membOf d.groups i)).2)
  rcases hp : writePrims d is actif with ⟨ls, a1⟩
  rcases hp2 : writePrims d is (membOf d.groups i) with ⟨ls2, a2⟩
  by_cases h : actif = membOf d.groups i
  · rw [if_pos h]
  · rw [if_neg h]

theorem writePrims_append {F : Type} (d : ObjData F) (p1 p2 : List Nat) (actif : List Nat) :
    writePrims d (p1 ++ p2) actif =
      ((writePrims d p1 actif).1 ++ (writePrims d p2 (writePrims d p1 actif).2).1,
        (writePrims d p2 (writePrims d p1 actif).2).2) := by
  induction p1 generalizing actif with
  | nil => simp [writePrims]
  | cons i is ih =>
    rw [List.cons_append, writePrims_cons, writePrims_cons]
    by_cases h : actif = membOf d.groups i
    · rw [if_pos h, if_pos h, ih]
      rfl
    · rw [if_neg h, if_neg h, ih]
      rfl

/-! ### Claim C9 -/

/-- C9.  Before each face, `write` recomputes the face's group
membership in declaration order (a strictly increasing list of exactly
the groups containing the face); it emits a `g` line exactly when this
membership differs from the previous one *as a set* (for sorted lists,
list inequality coincides with set inequality); a change to the empty
membership emits the bare line `"g"`; and the active membership persists
across object boundaries: for unnamed objects the output is exactly the
output for the concatenated primitive stream. -/
theorem lw_c9_write_group_diffing :
    (∀ (F : Type) (d : ObjData F) (i : Nat) (is actif : List Nat),
        actif.Pairwise (· < ·) →
        writePrims d (i :: is) actif =
          (if actif.toFinset = (membOf d.groups i).toFinset then
            (fLineOf (d.faces.getD i []) :: (writePrims d is actif).1,
              (writePrims d is actif).2)
          else
            (gLineOf d.groups (membOf d.groups i) ::
                fLineOf (d.faces.getD i []) :: (writePrims d is (membOf d.groups i)).1,
              (writePrims d is (membOf d.groups i)).2))) ∧
    (∀ gs : List Group, gLineOf gs [] = "g") ∧
    (∀ (F : Type) (d : ObjData F) (os : List Object) (actif : List Nat),
        (∀ o ∈ os, o.name = "") →
        writeObjs d os actif =
          (writePrims d ((os.map Object.primitives).flatten) actif).1) ∧
    (∀ (gs : List Group) (i : Nat), (membOf gs i).Pairwise (· < ·)) ∧
    (∀ (gs : List Group) (i j : Nat) (d : Group),
        j ∈ membOf gs i ↔ j < gs.length ∧ i ∈ (gs.getD j d).indexes) := by
    refine ⟨?_, fun gs => rfl, ?_, membOf_sorted, fun gs i j d => mem_membOf d⟩
    · intro F d i is actif hsort
      rw [writePrims_cons]
      by_cases h : actif = membOf d.groups i
      · rw [if_pos h,
            if_pos ((sorted_lt_eq_iff_toFinset hsort (membOf_sorted d.groups i)).mp h)]
      · rw [if_neg h,
            if_neg (fun hf => h ((sorted_lt_eq_iff_toFinset hsort
              (membOf_sorted d.groups i)).mpr hf))]
    · intro F d os actif hnames
      induction os generalizing actif with
      | nil => rfl
      | cons o os ih =>
        have ho : o.name = "" := hnames o (List.mem_cons_self o os)
        simp only [writeObjs, List.map_cons, List.flatten_cons, writePrims_append, ho,
          if_true]
        rw [ih _ (fun o' h' => hnames o' (List.mem_cons_of_mem _ h'))]

/-- C9, witness: the per-face step applied to a concrete scene where the
membership `[0]` of face 0 differs from the active set `[]`, emitting a
`g` line. -/
theorem lw_c9_witness :
    writePrims (F := String) ⟨[], [], [], [[(0, none, none)]], [], [⟨"a", {0}⟩]⟩ [0] [] =
      (if ([] : List Nat).toFinset =
          (membOf [⟨"a", {0}⟩] 0).toFinset then
        (fLineOf ([[(0, none, none)]].getD 0 []) ::
            (writePrims (F := String) ⟨[], [], [], [[(0, none, none)]], [], [⟨"a", {0}⟩]⟩ [] []).1,
          (writePrims (F := String) ⟨[], [], [], [[(0, none, none)]], [], [⟨"a", {0}⟩]⟩ [] []).2)
      else
        (gLineOf [⟨"a", {0}⟩] (membOf [⟨"a", {0}⟩] 0) ::
            fLineOf ([[(0, none, none)]].getD 0 []) ::
            (writePrims (F := String) ⟨[], [], [], [[(0, none, none)]], [], [⟨"a", {0}⟩]⟩ []
              (membOf [⟨"a", {0}⟩] 0)).1,
          (writePrims (F := String) ⟨[], [], [], [[(0, none, none)]], [], [⟨"a", {0}⟩]⟩ []
            (membOf [⟨"a", {0}⟩] 0)).2)) :=
  lw_c9_write_group_diffing.1 String ⟨[], [], [], [[(0, none, none)]], [], [⟨"a", {0}⟩]⟩ 0 [] []
    (List.Pairwise.nil)

/-! ### Tokens of `split_whitespace` -/

theorem wordsAux_nil (cur : List Char) :
    wordsAux [] cur = if cur = [] then [] else [cur.reverse] := rfl

theorem wordsAux_cons (c : Char) (cs cur : List Char) :
    wordsAux (c :: cs) cur =
      if isWs c then
        (if cur = [] then wordsAux cs [] else cur.reverse :: wordsAux cs [])
      else wordsAux cs (c :: cur) := rfl

theorem wordsAux_isTok (cs : List Char) : ∀ (cur : List Char), (∀ c ∈ cur, ¬ isWs c) →
    ∀ t ∈ wordsAux cs cur, isTok t := by
  induction cs with
  | nil =>
    intro cur hcur t ht
    unfold wordsAux at ht
    by_cases h : cur = []
    · rw [if_pos h] at ht
      simp at ht
    · rw [if_neg h] at ht
      rcases List.mem_singleton.mp ht with rfl
      exact ⟨by simpa using h, fun c hc => hcur c (List.mem_reverse.mp hc)⟩
  | cons c cs ih =>
    intro cur hcur t ht
    unfold wordsAux at ht
    by_cases hw : isWs c
    · rw [if_pos hw] at ht
      by_cases h : cur = []
      · rw [if_pos h] at ht
        exact ih [] (by simp) t ht
      · rw [if_neg h] at ht
        rcases List.mem_cons.mp ht with rfl | ht'
        · exact ⟨by simpa using h, fun c hc => hcur c (List.mem_reverse.mp hc)⟩
        · exact ih [] (by simp) t ht'
    · rw [if_neg hw] at ht
      refine ih (c :: cur) ?_ t ht
      intro c' hc'
      rcases List.mem_cons.mp hc' with rfl | h'
      · exact hw
      · exact hcur c' h'

theorem wordsL_isTok {cs : List Char} : ∀ t ∈ wordsL cs, isTok t :=
  wordsAux_isTok cs [] (by simp)

theorem wordsAux_nonws_front (t : List Char) (ht : ∀ c ∈ t, ¬ isWs c) :
    ∀ (cs cur : List Char), wordsAux (t ++ cs) cur = wordsAux cs (t.reverse ++ cur) := by
  induction t with
  | nil => intro cs cur; rfl
  | cons c t ih =>
    intro cs cur
    have hc : ¬ isWs c := ht c (List.mem_cons_self c t)
    have e1 : wordsAux ((c :: t) ++ cs) cur = wordsAux (t ++ cs) (c :: cur) := by
      show (if isWs c = true then
              if cur = [] then wordsAux (t ++ cs) [] else cur.reverse :: wordsAux (t ++ cs) []
            else wordsAux (t ++ cs) (c :: cur)) = wordsAux (t ++ cs) (c :: cur)
      rw [if_neg hc]
    rw [e1, ih (fun c' h' => ht c' (List.mem_cons_of_mem _ h')) cs (c :: cur)]
    congr 1
    simp

theorem wordsL_unwordsL : ∀ (ts : List (List Char)), ts ≠ [] → (∀ t ∈ ts, isTok t) →
    wordsL (unwordsL ts) = ts
  | [], h, _ => absurd rfl h
  | [t], _, htok => by
    obtain ⟨hne, hnw⟩ := htok t (List.mem_singleton.mpr rfl)
    have h1 := wordsAux_nonws_front t hnw [] []
    simp only [List.append_nil] at h1
    show wordsAux t [] = [t]
    rw [h1]
    have hrev : t.reverse ≠ [] := fun h => hne (by simpa using congrArg List.reverse h)
    show (if t.reverse = [] then [] else [t.reverse.reverse]) = [t]
    rw [if_neg hrev]
    simp
  | t :: t2 :: ts, _, htok => by
    obtain ⟨hne, hnw⟩ := htok t (List.mem_cons_self _ _)
    have h1 := wordsAux_nonws_front t hnw (' ' :: unwordsL (t2 :: ts)) []
    simp only [List.append_nil] at h1
    show wordsAux (t ++ ' ' :: unwordsL (t2 :: ts)) [] = t :: t2 :: ts
    rw [h1]
    have hrev : t.reverse ≠ [] := fun h => hne (by simpa using congrArg List.reverse h)
    have e2 : wordsAux (' ' :: unwordsL (t2 :: ts)) t.reverse =
        t.reverse.reverse :: wordsAux (unwordsL (t2 :: ts)) [] := by
      show (if isWs ' ' = true then
              if t.reverse = [] then wordsAux (unwordsL (t2 :: ts)) []
              else t.reverse.reverse :: wordsAux (unwordsL (t2 :: ts)) []
            else wordsAux (unwordsL (t2 :: ts)) (' ' :: t.reverse)) = _
      rw [if_pos (by decide), if_neg hrev]
    rw [e2]
    rw [show wordsAux (unwordsL (t2 :: ts)) [] = wordsL (unwordsL (t2 :: ts)) from rfl]
    rw [wordsL_unwordsL (t2 :: ts) (by simp) (fun t' h' => htok t' (List.mem_cons_of_mem _ h'))]
    simp

/-! ### Inversion lemmas for the face handler -/

theorem usizeSub1_lt (v : Nat) : usizeSub1 v < W := by
  unfold usizeSub1
  exact Nat.mod_lt _ (by norm_num [W])

theorem faceRefWF_of_parseFaceArg {nb : Nat} {a : List Char}
    {r : Nat × Option Nat × Option Nat} (h : parseFaceArg nb a = .ok r) :
    r.1 < W ∧ (∀ v ∈ r.2.1, v < W) ∧ (∀ v ∈ r.2.2, v < W) := by
  unfold parseFaceArg at h
  by_cases hc : (splitSlash a []).length = 0 ∨ (splitSlash a []).length > 3
  · rw [if_pos hc] at h
    cases h
  · rw [if_neg hc] at h
    rcases hp : parseUsizeL ((splitSlash a []).getD 0 []) with _ | v
    · rw [hp] at h
      cases h
    · rw [hp] at h
      injection h with h1
      rw [← h1]
      refine ⟨usizeSub1_lt v, ?_, ?_⟩
      · by_cases h2 : 2 ≤ (splitSlash a []).length
        · rw [if_pos h2]
          intro x hx
          rw [Option.mem_def] at hx
          obtain ⟨u, _, rfl⟩ := Option.map_eq_some'.mp hx
          exact usizeSub1_lt u
        · rw [if_neg h2]
          intro x hx
          cases hx
      · by_cases h3 : (splitSlash a []).length = 3
        · rw [if_pos h3]
          intro x hx
          rw [Option.mem_def] at hx
          obtain ⟨u, _, rfl⟩ := Option.map_eq_some'.mp hx
          exact usizeSub1_lt u
        · rw [if_neg h3]
          intro x hx
          cases hx

theorem parseFaceArgs_ok {nb : Nat} {args : List (List Char)}
    {vec : List (Nat × Option Nat × Option Nat)} (h : parseFaceArgs nb args = .ok vec) :
    vec.length = args.length ∧
      ∀ r ∈ vec, r.1 < W ∧ (∀ v ∈ r.2.1, v < W) ∧ (∀ v ∈ r.2.2, v < W) := by
  induction args generalizing vec with
  | nil =>
    cases h
    simp
  | cons a as ih =>
    unfold parseFaceArgs at h
    rcases ha : parseFaceArg nb a with e | r
    · rw [ha] at h
      cases h
    · rw [ha] at h
      rcases hrest : parseFaceArgs nb as with e | rs
      · rw [hrest] at h
        cases h
      · rw [hrest] at h
        injection h with h1
        obtain ⟨hl, hall⟩ := ih hrest
        rw [← h1]
        refine ⟨by simp [hl], ?_⟩
        intro r' hr'
        rcases List.mem_cons.mp hr' with rfl | hr'
        · exact faceRefWF_of_parseFaceArg ha
        · exact hall r' hr'

/-! ### `pushPrim` lemmas -/

theorem pushPrim_length (os : List Object) (k idx : Nat) :
    (pushPrim os k idx).length = os.length := by
  induction os generalizing k with
  | nil => rfl
  | cons o os ih =>
    cases k with
    | zero => rfl
    | succ k => simp [pushPrim, ih k]

theorem pushPrim_map_name (os : List Object) (k idx : Nat) :
    (pushPrim os k idx).map Object.name = os.map Object.name := by
  induction os generalizing k with
  | nil => rfl
  | cons o os ih =>
    cases k with
    | zero => rfl
    | succ k => simp [pushPrim, ih k]

theorem pushPrim_getD (os : List Object) (k idx j : Nat) (d : Object) (hj : j < os.length) :
    (pushPrim os k idx).getD j d =
      if j = k then
        { os.getD j d with primitives := (os.getD j d).primitives ++ [idx] }
      else os.getD j d := by
  induction os generalizing k j with
  | nil => simp at hj
  | cons o os ih =>
    cases k with
    | zero =>
      cases j with
      | zero => simp [pushPrim]
      | succ j' => simp [pushPrim]
    | succ k =>
      cases j with
      | zero => simp [pushPrim]
      | succ j' =>
        have hj' : j' < os.length := by simpa using hj
        simp only [pushPrim, List.getD_cons_succ]
        rw [ih k j' hj']
        by_cases h : j' = k
        · simp [h]
        · simp [h, fun hh => h (Nat.succ_injective hh)]

theorem pushPrim_last_flatten (os : List Object) (idx : Nat) (hne : os ≠ []) :
    ((pushPrim os (os.length - 1) idx).map Object.primitives).flatten =
      ((os.map Object.primitives).flatten) ++ [idx] := by
  induction os with
  | nil => exact absurd rfl hne
  | cons o os ih =>
    cases os with
    | nil => simp [pushPrim]
    | cons o2 rest =>
      have e1 : (o :: o2 :: rest).length - 1 = (o2 :: rest).length := by simp
      rw [e1]
      show ((o :: pushPrim (o2 :: rest) ((o2 :: rest).length - 1 + 1 - 1) idx).map
        Object.primitives).flatten = _
      have e2 : (o2 :: rest).length - 1 + 1 - 1 = (o2 :: rest).length - 1 := by simp
      rw [e2]
      simp only [List.map_cons, List.flatten_cons]
      rw [ih (by simp)]
      simp [List.append_assoc]

/-! ### `g` handler fold invariants -/

theorem hits_mem_lt {gs : List Group} {n : String} {j : Nat}
    (h : j ∈ (gs.enum.filter (fun p => p.2.name = n)).map Prod.fst) : j < gs.length := by
  obtain ⟨⟨k, g⟩, hk, rfl⟩ := List.mem_map.mp h
  have hk2 := (List.mem_filter.mp hk).1
  have := List.mem_enum_iff_getElem?.mp hk2
  exact (List.getElem?_eq_some.mp this).1

theorem hits_nil {gs : List Group} {n : String}
    (h : (gs.enum.filter (fun p => p.2.name = n)).map Prod.fst = []) :
    ∀ g ∈ gs, g.name ≠ n := by
  intro g hg hname
  obtain ⟨j, hjlt, hjg⟩ := List.mem_iff_getElem.mp hg
  have h1 : (j, g) ∈ gs.enum := by
    rw [List.mem_enum_iff_getElem?, List.getElem?_eq_getElem hjlt, hjg]
  have h2 : (j, g) ∈ gs.enum.filter (fun p => p.2.name = n) :=
    List.mem_filter.mpr ⟨h1, by simp [hname]⟩
  have h3 : j ∈ (gs.enum.filter (fun p => p.2.name = n)).map Prod.fst :=
    List.mem_map_of_mem Prod.fst h2
  rw [h] at h3
  cases h3

theorem gFold_inv : ∀ (args : List (List Char)) (gs : List Group) (acc : List Nat),
    (gs.map Group.name).Nodup →
    (∀ j ∈ acc, j < gs.length) →
    ((args.foldl gArg (gs, acc)).1.map Group.name).Nodup ∧
    (∀ g ∈ (args.foldl gArg (gs, acc)).1, g ∈ gs ∨ g.indexes = ∅) ∧
    (∀ g ∈ (args.foldl gArg (gs, acc)).1,
        g ∈ gs ∨ ∃ a ∈ args, g.name = (⟨a⟩ : String)) ∧
    (∀ j ∈ (args.foldl gArg (gs, acc)).2, j < (args.foldl gArg (gs, acc)).1.length) ∧
    gs.length ≤ (args.foldl gArg (gs, acc)).1.length
  | [], gs, acc, hnodup, hacc =>
    ⟨hnodup, fun g hg => Or.inl hg, fun g hg => Or.inl hg, hacc, Nat.le_refl _⟩
  | a :: as, gs, acc, hnodup, hacc => by
    have e1 : (a :: as).foldl gArg (gs, acc) = as.foldl gArg (gArg (gs, acc) a) :=
      List.foldl_cons _ _
    by_cases hh : ((gs.enum.filter (fun p => p.2.name = (⟨a⟩ : String))).map Prod.fst) = []
    · have e2 : gArg (gs, acc) a = (gs ++ [Group.new ⟨a⟩], acc ++ [gs.length]) := by
        unfold gArg
        rw [hh]
        rw [if_pos rfl]
      have hnodup' : ((gs ++ [Group.new ⟨a⟩]).map Group.name).Nodup := by
        rw [List.map_append]
        refine List.Nodup.append hnodup (by simp) ?_
        intro x hx hx2
        rcases List.mem_map.mp hx with ⟨g, hg, rfl⟩
        simp only [List.map_cons, List.map_nil, List.mem_singleton] at hx2
        exact hits_nil hh g hg hx2
      have hacc' : ∀ j ∈ acc ++ [gs.length], j < (gs ++ [Group.new ⟨a⟩]).length := by
        intro j hj
        rcases List.mem_append.mp hj with hj | hj
        · have := hacc j hj
          simp only [List.length_append, List.length_cons, List.length_nil]
          omega
        · rcases List.mem_singleton.mp hj with rfl
          simp
      obtain ⟨ih1, ih2, ih3, ih4, ih5⟩ :=
        gFold_inv as (gs ++ [Group.new ⟨a⟩]) (acc ++ [gs.length]) hnodup' hacc'
      rw [e1, e2]
      refine ⟨ih1, ?_, ?_, ih4, ?_⟩
      · intro g hg
        rcases ih2 g hg with hmem | hemp
        · rcases List.mem_append.mp hmem with hmem | hmem
          · exact Or.inl hmem
          · rcases List.mem_singleton.mp hmem with rfl
            exact Or.inr rfl
        · exact Or.inr hemp
      · intro g hg
        rcases ih3 g hg with hmem | ⟨a', ha', hname⟩
        · rcases List.mem_append.mp hmem with hmem | hmem
          · exact Or.inl hmem
          · rcases List.mem_singleton.mp hmem with rfl
            exact Or.inr ⟨a, List.mem_cons_self _ _, rfl⟩
        · exact Or.inr ⟨a', List.mem_cons_of_mem _ ha', hname⟩
      · calc gs.length ≤ (gs ++ [Group.new ⟨a⟩]).length := by simp
          _ ≤ _ := ih5
    · have e2 : gArg (gs, acc) a =
          (gs, acc ++ (gs.enum.filter (fun p => p.2.name = (⟨a⟩ : String))).map Prod.fst) := by
        unfold gArg
        rw [if_neg hh]
      have hacc' : ∀ j ∈ acc ++ (gs.enum.filter
          (fun p => p.2.name = (⟨a⟩ : String))).map Prod.fst, j < gs.length := by
        intro j hj
        rcases List.mem_append.mp hj with hj | hj
        · exact hacc j hj
        · exact hits_mem_lt hj
      obtain ⟨ih1, ih2, ih3, ih4, ih5⟩ := gFold_inv as gs _ hnodup hacc'
      rw [e1, e2]
      refine ⟨ih1, ih2, ?_, ih4, ih5⟩
      intro g hg
      rcases ih3 g hg with hmem | ⟨a', ha', hname⟩
      · exact Or.inl hmem
      · exact Or.inr ⟨a', List.mem_cons_of_mem _ ha', hname⟩

/-! ### Name preservation under insertions -/

theorem insGroup_map_name (gs : List Group) (k idx : Nat) :
    (insGroup gs k idx).map Group.name = gs.map Group.name := by
  induction gs generalizing k with
  | nil => rfl
  | cons g gs ih =>
    cases k with
    | zero => rfl
    | succ k => simp [insGroup, ih k]

theorem insGroups_map_name (gs : List Group) (actif : List Nat) (idx : Nat) :
    (insGroups gs actif idx).map Group.name = gs.map Group.name := by
  induction actif generalizing gs with
  | nil => rfl
  | cons k ks ih =>
    show (insGroups (insGroup gs k idx) ks idx).map Group.name = _
    rw [ih, insGroup_map_name]

theorem group_mem_iff_getD {gs : List Group} {g : Group} (d : Group) :
    g ∈ gs ↔ ∃ j, j < gs.length ∧ gs.getD j d = g := by
  constructor
  · intro hg
    obtain ⟨j, hj, hjg⟩ := List.mem_iff_getElem.mp hg
    refine ⟨j, hj, ?_⟩
    rw [List.getD_eq_getElem?_getD, List.getElem?_eq_getElem hj, hjg]
    rfl
  · rintro ⟨j, hj, rfl⟩
    exact mem_of_getD d hj

/-! ### Handler inversions and invariant preservation -/

theorem handleV_fields {F : Type} {M : FloatModel F} {args : List (List Char)}
    {st st' : LoadSt F} (h : handleV M args st = .ok st') :
    st'.data.faces = st.data.faces ∧ st'.data.objects = st.data.objects ∧
    st'.data.groups = st.data.groups ∧ st'.actif = st.actif ∧ st'.obj = st.obj := by
  unfold handleV at h
  rcases hp : parseAll M args st.nb with e | values
  · rw [hp] at h
    cases h
  · rw [hp] at h
    rcases values with _ | ⟨a, _ | ⟨b, _ | ⟨c, _ | ⟨d, _ | ⟨e, rest⟩⟩⟩⟩⟩ <;>
      first
        | (injection h with h1; rw [← h1]; exact ⟨rfl, rfl, rfl, rfl, rfl⟩)
        | cases h

theorem handleVN_fields {F : Type} {M : FloatModel F} {args : List (List Char)}
    {st st' : LoadSt F} (h : handleVN M args st = .ok st') :
    st'.data.faces = st.data.faces ∧ st'.data.objects = st.data.objects ∧
    st'.data.groups = st.data.groups ∧ st'.actif = st.actif ∧ st'.obj = st.obj := by
  unfold handleVN at h
  rcases hp : parseAll M args st.nb with e | values
  · rw [hp] at h
    cases h
  · rw [hp] at h
    rcases values with _ | ⟨a, _ | ⟨b, _ | ⟨c, _ | ⟨d, rest⟩⟩⟩⟩ <;>
      first
        | (injection h with h1; rw [← h1]; exact ⟨rfl, rfl, rfl, rfl, rfl⟩)
        | cases h

theorem handleVT_fields {F : Type} {M : FloatModel F} {args : List (List Char)}
    {st st' : LoadSt F} (h : handleVT M args st = .ok st') :
    st'.data.faces = st.data.faces ∧ st'.data.objects = st.data.objects ∧
    st'.data.groups = st.data.groups ∧ st'.actif = st.actif ∧ st'.obj = st.obj := by
  unfold handleVT at h
  rcases hp : parseAll M args st.nb with e | values
  · rw [hp] at h
    cases h
  · rw [hp] at h
    rcases values with _ | ⟨a, _ | ⟨b, _ | ⟨c, _ | ⟨d, rest⟩⟩⟩⟩ <;>
      first
        | (injection h with h1; rw [← h1]; exact ⟨rfl, rfl, rfl, rfl, rfl⟩)
        | cases h

theorem stWF_of_fields {F : Type} {st st' : LoadSt F}
    (hf : st'.data.faces = st.data.faces) (ho : st'.data.objects = st.data.objects)
    (hg : st'.data.groups = st.data.groups) (ha : st'.actif = st.actif)
    (hob : st'.obj = st.obj) (h : stWF st) : stWF st' := by
  unfold stWF sceneWF at *
  rw [hf, ho, hg, ha, hob]
  exact h

theorem unwordsL_ne_nil {t : List Char} (ts : List (List Char)) (ht : t ≠ []) :
    unwordsL (t :: ts) ≠ [] := by
  cases ts with
  | nil => simpa [unwordsL] using ht
  | cons t2 ts =>
    show t ++ ' ' :: unwordsL (t2 :: ts) ≠ []
    simp

theorem string_mk_ne_empty {l : List Char} (h : l ≠ []) : (⟨l⟩ : String) ≠ "" := by
  intro hh
  exact h (congrArg String.data hh)

theorem handleO_wf {F : Type} {args : List (List Char)} {st st' : LoadSt F}
    (htok : ∀ a ∈ args, isTok a)
    (h : handleO (F := F) args st = .ok st') (hwf : stWF st) : stWF st' := by
  cases args with
  | nil => cases h
  | cons a as =>
    injection h with h1
    obtain ⟨⟨w1, w2, w3, w4, w5, w6, w7, w8⟩, hobj, hactif⟩ := hwf
    have hne : unwordsL (a :: as) ≠ [] := unwordsL_ne_nil as (htok a (List.mem_cons_self a as)).1
    have hnm : (⟨unwordsL (a :: as)⟩ : String) ≠ "" := string_mk_ne_empty hne
    have hcanon : canonName ⟨unwordsL (a :: as)⟩ := by
      constructor
      · rw [show (⟨unwordsL (a :: as)⟩ : String).data = unwordsL (a :: as) from rfl,
            wordsL_unwordsL (a :: as) (by simp) htok]
        simp
      · rw [show (⟨unwordsL (a :: as)⟩ : String).data = unwordsL (a :: as) from rfl,
            wordsL_unwordsL (a :: as) (by simp) htok]
    rw [← h1]
    refine ⟨⟨?_, ?_, ?_, ?_, w5, w6, w7, w8⟩, ?_, hactif⟩
    · show ((st.data.objects ++ [Object.new ⟨unwordsL (a :: as)⟩]).map
        Object.primitives).flatten = List.range st.data.faces.length
      rw [List.map_append, List.flatten_append]
      simp [w1, Object.new]
    · show ∀ s ∈ ((st.data.objects ++ [Object.new ⟨unwordsL (a :: as)⟩]).map
        Object.name).tail, s ≠ ""
      intro s hs
      rw [List.map_append] at hs
      rcases hl : st.data.objects.map Object.name with _ | ⟨s0, srest⟩
      · rw [hl] at hs
        simp only [List.nil_append, List.map_cons, List.map_nil, List.tail_cons] at hs
        cases hs
      · rw [hl] at hs
        simp only [List.cons_append, List.tail_cons] at hs
        rcases List.mem_append.mp hs with hs | hs
        · refine w2 s ?_
          rw [hl]
          exact hs
        · simp only [List.map_cons, List.map_nil, List.mem_singleton] at hs
          rw [hs]
          exact hnm
    · show ∀ o ∈ (st.data.objects ++ [Object.new ⟨unwordsL (a :: as)⟩]).head?,
        o.name = "" → o.primitives ≠ []
      rcases ho2 : st.data.objects with _ | ⟨o0, os⟩
      · intro o ho
        simp only [ho2, List.nil_append, List.head?_cons, Option.mem_def,
          Option.some.injEq] at ho
        rw [← ho]
        intro hname
        exact absurd hname hnm
      · intro o ho
        simp only [ho2, List.cons_append, List.head?_cons, Option.mem_def,
          Option.some.injEq] at ho
        rw [← ho]
        intro hname
        refine w3 o0 ?_ hname
        rw [ho2]
        rfl
    · show ∀ s ∈ (st.data.objects ++ [Object.new ⟨unwordsL (a :: as)⟩]).map
        Object.name, s = "" ∨ canonName s
      intro s hs
      rw [List.map_append] at hs
      rcases List.mem_append.mp hs with hs | hs
      · exact w4 s hs
      · simp only [List.map_cons, List.map_nil, List.mem_singleton] at hs
        rw [hs]
        exact Or.inr hcanon
    · show (match some st.data.objects.length with
        | none => (st.data.objects ++ [Object.new ⟨unwordsL (a :: as)⟩]) = []
        | some k => k + 1 = (st.data.objects ++ [Object.new ⟨unwordsL (a :: as)⟩]).length)
      simp

theorem handleG_wf {F : Type} {args : List (List Char)} {st st' : LoadSt F}
    (htok : ∀ a ∈ args, isTok a)
    (h : handleG (F := F) args st = .ok st') (hwf : stWF st) : stWF st' := by
  obtain ⟨⟨w1, w2, w3, w4, w5, w6, w7, w8⟩, hobj, hactif⟩ := hwf
  obtain ⟨g1, g2, g3, g4, g5⟩ :=
    gFold_inv args st.data.groups [] w6 (by simp)
  unfold handleG at h
  injection h with h1
  rw [← h1]
  refine ⟨⟨w1, w2, w3, w4, ?_, g1, ?_, w8⟩, hobj, g4⟩
  · intro g hg
    rcases g3 g hg with hmem | ⟨a, ha, hname⟩
    · exact w5 g hmem
    · rw [hname]
      exact htok a ha
  · intro g hg
    rcases g2 g hg with hmem | hemp
    · exact w7 g hmem
    · rw [hemp]
      intro i hi
      cases hi

theorem isTok_names_insGroups {gs : List Group} {actif : List Nat} {idx : Nat}
    (hw : ∀ g ∈ gs, isTok g.name.data) :
    ∀ g ∈ insGroups gs actif idx, isTok g.name.data := by
  intro g hg
  have h1 : g.name ∈ (insGroups gs actif idx).map Group.name :=
    List.mem_map_of_mem Group.name hg
  rw [insGroups_map_name] at h1
  obtain ⟨g', hg', hname⟩ := List.mem_map.mp h1
  rw [← hname]
  exact hw g' hg'

theorem insGroups_indexes_bound {gs : List Group} {actif : List Nat} {idx n m : Nat}
    (hidx : ∀ g ∈ gs, ∀ i ∈ g.indexes, i < n) (hiv : idx < m) (hmono : n ≤ m) :
    ∀ g ∈ insGroups gs actif idx, ∀ i ∈ g.indexes, i < m := by
  intro g hg i hi
  obtain ⟨j, hj, hjg⟩ := (group_mem_iff_getD (Group.new "")).mp hg
  rw [insGroups_length] at hj
  rw [insGroups_getD gs actif idx j (Group.new "") hj] at hjg
  by_cases hja : j ∈ actif
  · rw [if_pos hja] at hjg
    rw [← hjg] at hi
    rcases Finset.mem_insert.mp hi with rfl | hi
    · exact hiv
    · exact Nat.lt_of_lt_of_le (hidx _ (mem_of_getD (Group.new "") hj) i hi) hmono
  · rw [if_neg hja] at hjg
    rw [← hjg] at hi
    exact Nat.lt_of_lt_of_le (hidx _ (mem_of_getD (Group.new "") hj) i hi) hmono

theorem handleF_wf {F : Type} {args : List (List Char)} {st st' : LoadSt F}
    (h : handleF (F := F) args st = .ok st') (hwf : stWF st) : stWF st' := by
  obtain ⟨⟨w1, w2, w3, w4, w5, w6, w7, w8⟩, hobj, hactif⟩ := hwf
  unfold handleF at h
  by_cases hlen : args.length < 3
  · rw [if_pos hlen] at h
    cases h
  · rw [if_neg hlen] at h
    rcases hp : parseFaceArgs st.nb args with e | vec
    · rw [hp] at h
      cases h
    · rw [hp] at h
      obtain ⟨hveclen, hvecwf⟩ := parseFaceArgs_ok hp
      have hface : faceWF vec := ⟨by omega, hvecwf⟩
      have hidx : (st.data.faces ++ [vec]).length - 1 = st.data.faces.length := by simp
      rcases ho : st.obj with _ | k
      · rw [ho] at h
        have hobjnil : st.data.objects = [] := by
          rw [ho] at hobj
          exact hobj
        have hfnil : st.data.faces = [] := by
          have h0 : List.range st.data.faces.length = [] := by
            rw [← w1, hobjnil]
            rfl
          exact List.length_eq_zero.mp (by simpa using congrArg List.length h0)
        injection h with h1
        rw [← h1]
        refine ⟨⟨?_, ?_, ?_, ?_, ?_, ?_, ?_, ?_⟩, ?_, ?_⟩
        · show ((pushPrim (st.data.objects ++ [Object.new ""]) st.data.objects.length
            ((st.data.faces ++ [vec]).length - 1)).map Object.primitives).flatten =
            List.range (st.data.faces ++ [vec]).length
          rw [hobjnil, hfnil]
          rfl
        · show ∀ s ∈ ((pushPrim (st.data.objects ++ [Object.new ""]) st.data.objects.length
            ((st.data.faces ++ [vec]).length - 1)).map Object.name).tail, s ≠ ""
          rw [hobjnil, hfnil]
          intro s hs
          cases hs
        · show ∀ o ∈ (pushPrim (st.data.objects ++ [Object.new ""]) st.data.objects.length
            ((st.data.faces ++ [vec]).length - 1)).head?, o.name = "" → o.primitives ≠ []
          rw [hobjnil, hfnil]
          intro o ho2 _
          simp only [List.nil_append, Option.mem_def] at ho2
          have hoeq : o = (⟨"", [0]⟩ : Object) := by
            cases ho2
            rfl
          rw [hoeq]
          simp
        · show ∀ s ∈ ((pushPrim (st.data.objects ++ [Object.new ""]) st.data.objects.length
            ((st.data.faces ++ [vec]).length - 1)).map Object.name), s = "" ∨ canonName s
          rw [hobjnil, hfnil]
          intro s hs
          rcases List.mem_singleton.mp hs with rfl
          exact Or.inl rfl
        · exact isTok_names_insGroups w5
        · show ((insGroups st.data.groups st.actif
            ((st.data.faces ++ [vec]).length - 1)).map Group.name).Nodup
          rw [insGroups_map_name]
          exact w6
        · show ∀ g ∈ insGroups st.data.groups st.actif
            ((st.data.faces ++ [vec]).length - 1), ∀ i ∈ g.indexes,
            i < (st.data.faces ++ [vec]).length
          rw [hidx]
          exact insGroups_indexes_bound w7 (by simp) (by simp)
        · intro f hf
          rcases List.mem_append.mp hf with hf | hf
          · exact w8 f hf
          · rcases List.mem_singleton.mp hf with rfl
            exact hface
        · show st.data.objects.length + 1 =
            (pushPrim (st.data.objects ++ [Object.new ""])
              ((some st.data.objects.length).getD 0)
              ((st.data.faces ++ [vec]).length - 1)).length
          rw [pushPrim_length]
          simp
        · show ∀ j ∈ st.actif, j < (insGroups st.data.groups st.actif
            ((st.data.faces ++ [vec]).length - 1)).length
          rw [insGroups_length]
          exact hactif
      · rw [ho] at h
        have hk : k + 1 = st.data.objects.length := by
          rw [ho] at hobj
          exact hobj
        have hone : st.data.objects ≠ [] := by
          intro hnil
          rw [hnil] at hk
          cases hk
        have hklast : k = st.data.objects.length - 1 := by omega
        injection h with h1
        rw [← h1]
        refine ⟨⟨?_, ?_, ?_, ?_, ?_, ?_, ?_, ?_⟩, ?_, ?_⟩
        · show ((pushPrim st.data.objects k ((st.data.faces ++ [vec]).length - 1)).map
            Object.primitives).flatten = List.range (st.data.faces ++ [vec]).length
          rw [hidx, hklast, pushPrim_last_flatten st.data.objects st.data.faces.length hone,
            w1]
          rw [show (st.data.faces ++ [vec]).length = st.data.faces.length + 1 by simp]
          rw [List.range_succ]
        · show ∀ s ∈ ((pushPrim st.data.objects k ((st.data.faces ++ [vec]).length - 1)).map
            Object.name).tail, s ≠ ""
          rw [pushPrim_map_name]
          exact w2
        · show ∀ o ∈ (pushPrim st.data.objects k ((st.data.faces ++ [vec]).length - 1)).head?,
            o.name = "" → o.primitives ≠ []
          rcases ho2 : st.data.objects with _ | ⟨o0, os⟩
          · exact absurd ho2 hone
          · cases k with
            | zero =>
              intro o hoo hname
              simp only [ho2, pushPrim, List.head?_cons, Option.mem_def,
                Option.some.injEq] at hoo
              rw [← hoo]
              simp
            | succ k' =>
              intro o hoo hname
              simp only [ho2, pushPrim, List.head?_cons, Option.mem_def,
                Option.some.injEq] at hoo
              rw [← hoo] at hname ⊢
              refine w3 o0 ?_ hname
              rw [ho2]
              rfl
        · show ∀ s ∈ ((pushPrim st.data.objects k ((st.data.faces ++ [vec]).length - 1)).map
            Object.name), s = "" ∨ canonName s
          rw [pushPrim_map_name]
          exact w4
        · exact isTok_names_insGroups w5
        · show ((insGroups st.data.groups st.actif
            ((st.data.faces ++ [vec]).length - 1)).map Group.name).Nodup
          rw [insGroups_map_name]
          exact w6
        · show ∀ g ∈ insGroups st.data.groups st.actif
            ((st.data.faces ++ [vec]).length - 1), ∀ i ∈ g.indexes,
            i < (st.data.faces ++ [vec]).length
          rw [hidx]
          exact insGroups_indexes_bound w7 (by simp) (by simp)
        · intro f hf
          rcases List.mem_append.mp hf with hf | hf
          · exact w8 f hf
          · rcases List.mem_singleton.mp hf with rfl
            exact hface
        · show k + 1 = (pushPrim st.data.objects ((some k).getD 0)
            ((st.data.faces ++ [vec]).length - 1)).length
          rw [pushPrim_length]
          exact hk
        · show ∀ j ∈ st.actif, j < (insGroups st.data.groups st.actif
            ((st.data.faces ++ [vec]).length - 1)).length
          rw [insGroups_length]
          exact hactif

theorem handle_wf {F : Type} {M : FloatModel F} {id : List Char} {args : List (List Char)}
    {st st' : LoadSt F} (htok : ∀ a ∈ args, isTok a)
    (h : handle M id args st = .ok st') (hwf : stWF st) : stWF st' := by
  unfold handle at h
  split_ifs at h
  · obtain ⟨h1, h2, h3, h4, h5⟩ := handleV_fields h
    exact stWF_of_fields h1 h2 h3 h4 h5 hwf
  · obtain ⟨h1, h2, h3, h4, h5⟩ := handleVN_fields h
    exact stWF_of_fields h1 h2 h3 h4 h5 hwf
  · obtain ⟨h1, h2, h3, h4, h5⟩ := handleVT_fields h
    exact stWF_of_fields h1 h2 h3 h4 h5 hwf
  · injection h with h1
    rw [← h1]
    exact hwf
  · exact handleF_wf h hwf
  · exact handleO_wf htok h hwf
  · exact handleG_wf htok h hwf

theorem runLine_wf {F : Type} {M : FloatModel F} {st st' : LoadSt F} {l : String}
    (h : runLine M st l = .ok st') (hwf : stWF st) : stWF st' := by
  unfold runLine at h
  by_cases hc : (st.buf ++ l.data ++ ['\n']).head? = some '#'
  · rw [if_pos hc] at h
    injection h with h1
    rw [← h1]
    exact stWF_of_fields rfl rfl rfl rfl rfl hwf
  · rw [if_neg hc] at h
    rcases hw : wordsL (st.buf ++ l.data ++ ['\n']) with _ | ⟨id, args⟩
    · rw [hw] at h
      injection h with h1
      rw [← h1]
      exact stWF_of_fields rfl rfl rfl rfl rfl hwf
    · rw [hw] at h
      dsimp only at h
      rcases hh : handle M id args st with e | s
      · rw [hh] at h
        cases h
      · rw [hh] at h
        injection h with h1
        rw [← h1]
        have hargs : ∀ a ∈ args, isTok a := by
          intro a ha
          have h2 : a ∈ wordsL (st.buf ++ l.data ++ ['\n']) := by
            rw [hw]
            exact List.mem_cons_of_mem id ha
          exact wordsL_isTok a h2
        have hs := handle_wf hargs hh hwf
        exact stWF_of_fields rfl rfl rfl rfl rfl hs

theorem loadLines_wf {F : Type} (M : FloatModel F) :
    ∀ (ls : List String) (st st' : LoadSt F),
      loadLines M ls st = .ok st' → stWF st → stWF st'
  | [], st, st', h, hwf => by
    injection h with h1
    rw [← h1]
    exact hwf
  | l :: ls, st, st', h, hwf => by
    unfold loadLines at h
    rcases hr : runLine M st l with e | s
    · rw [hr] at h
      cases h
    · rw [hr] at h
      exact loadLines_wf M ls s st' h (runLine_wf hr hwf)

theorem initSt_wf (F : Type) : stWF (initSt F) := by
  refine ⟨⟨rfl, ?_, ?_, ?_, ?_, ?_, ?_, ?_⟩, rfl, ?_⟩ <;>
    simp [initSt, ObjData.new]

/-- Every scene a successful `load` returns satisfies the structural
invariants `sceneWF`. -/
theorem load_sceneWF {F : Type} {M : FloatModel F} {ls : List String} {d : ObjData F}
    (h : ObjData.load M ls = .ok d) : sceneWF d := by
  unfold ObjData.load at h
  rcases hl : loadLines M ls (initSt F) with e | st
  · rw [hl] at h
    cases h
  · rw [hl] at h
    injection h with h1
    rw [← h1]
    exact (loadLines_wf M ls (initSt F) st hl (initSt_wf F)).1

/-! ### Claim C8 -/

/-- C8.  In every scene a successful `load` returns, the objects'
primitive lists concatenate to `[0, 1, …, faces.length - 1]`: each face
index belongs to exactly one object, in document order.  Concretely (the
repo's own examples): a document with no `o` puts all faces into one
implicit object named `""`; `o Cube` first puts them under `"Cube"`; and
faces are split at each `o` directive, the implicit unnamed object being
created lazily by the first face only. -/
theorem lw_c8_objects_partition :
    (∀ (F : Type) (M : FloatModel F) (ls : List String) (d : ObjData F),
        ObjData.load M ls = .ok d →
        (d.objects.map Object.primitives).flatten = List.range d.faces.length) ∧
    (ObjData.load f32TokModel
        ["f 2//1 4//1 1//1", "f 8 6 5", "f 4// 5// 6//", "f 8/3/2 6/5/3 5/7/1",
         "f 9/4/ 7/3/ 3/2/"]).map ObjData.objects =
      .ok [⟨"", [0, 1, 2, 3, 4]⟩] ∧
    (ObjData.load f32TokModel
        ["o Cube", "f 2//1 4//1 1//1", "f 8 6 5", "f 4// 5// 6//", "f 8/3/2 6/5/3 5/7/1",
         "f 9/4/ 7/3/ 3/2/"]).map ObjData.objects =
      .ok [⟨"Cube", [0, 1, 2, 3, 4]⟩] ∧
    (ObjData.load f32TokModel
        ["f 2//1 4//1 1//1", "f 8 6 5", "f 4// 5// 6//", "o Cube", "f 8/3/2 6/5/3 5/7/1",
         "f 9/4/ 7/3/ 3/2/", "o Test", "f 4 3 5"]).map ObjData.objects =
      .ok [⟨"", [0, 1, 2]⟩, ⟨"Cube", [3, 4]⟩, ⟨"Test", [5]⟩] := by
  refine ⟨?_, by decide, by decide, by decide⟩
  intro F M ls d h
  exact (load_sceneWF h).1

/-- C8, witness: the partition applied to a one-face document. -/
theorem lw_c8_witness :
    (([(⟨"", [0]⟩ : Object)].map Object.primitives).flatten =
      List.range ([[(0, none, none), (1, none, none), (2, none, none)]] :
        List (List (Nat × Option Nat × Option Nat))).length) :=
  lw_c8_objects_partition.1 String f32TokModel ["f 1 2 3"]
    ⟨[], [], [], [[(0, none, none), (1, none, none), (2, none, none)]], [⟨"", [0]⟩], []⟩
    (by decide)

/-! ### Decimal rendering round-trips through `parse` -/

theorem loadLines_append {F : Type} (M : FloatModel F) (l1 l2 : List String)
    (st : LoadSt F) :
    loadLines M (l1 ++ l2) st =
      match loadLines M l1 st with
      | .ok s => loadLines M l2 s
      | .error e => .error e := by
  induction l1 generalizing st with
  | nil => rfl
  | cons l ls ih =>
    show (match runLine M st l with
          | .ok st1 => loadLines M (ls ++ l2) st1
          | .error e => .error e) =
      match (match runLine M st l with
             | .ok st1 => loadLines M ls st1
             | .error e => .error e) with
      | .ok s => loadLines M l2 s
      | .error e => .error e
    cases runLine M st l with
    | error e => rfl
    | ok s => exact ih s

theorem digitChar_isDigit {n : Nat} (h : n < 10) : (digitChar n).isDigit := by
  interval_cases n <;> decide

theorem ntoaAux_digits : ∀ (fuel n : Nat), ∀ c ∈ ntoaAux fuel n, c.isDigit := by
  intro fuel
  induction fuel with
  | zero => intro n c hc; cases hc
  | succ fuel ih =>
    intro n c hc
    unfold ntoaAux at hc
    by_cases h : n < 10
    · rw [if_pos h] at hc
      rcases List.mem_singleton.mp hc with rfl
      exact digitChar_isDigit h
    · rw [if_neg h] at hc
      rcases List.mem_append.mp hc with hc | hc
      · exact ih (n / 10) c hc
      · rcases List.mem_singleton.mp hc with rfl
        exact digitChar_isDigit (Nat.mod_lt _ (by norm_num))

theorem ntoa_digits {n : Nat} : ∀ c ∈ ntoa n, c.isDigit :=
  ntoaAux_digits (n + 1) n

theorem ntoa_ne_nil (n : Nat) : ntoa n ≠ [] := by
  unfold ntoa ntoaAux
  by_cases h : n < 10
  · rw [if_pos h]
    simp
  · rw [if_neg h]
    simp

theorem isDigit_not_ws {c : Char} (h : c.isDigit) : ¬ isWs c := by
  intro hw
  unfold isWs at hw
  simp only [Bool.or_eq_true, decide_eq_true_eq] at hw
  rcases hw with ((h1 | h1) | h1) | h1 <;> subst h1 <;> simp [Char.isDigit] at h

theorem isDigit_ne_slash {c : Char} (h : c.isDigit) : c ≠ '/' := by
  intro hc
  rw [hc] at h
  simp [Char.isDigit] at h

theorem isDigit_ne_plus {c : Char} (h : c.isDigit) : c ≠ '+' := by
  intro hc
  rw [hc] at h
  simp [Char.isDigit] at h

theorem stripPlus_of_digits {cs : List Char} (h : ∀ c ∈ cs, c.isDigit) :
    stripPlus cs = cs := by
  cases cs with
  | nil => rfl
  | cons c rest =>
    show (if c = '+' then rest else c :: rest) = c :: rest
    rw [if_neg (isDigit_ne_plus (h c (List.mem_cons_self c rest)))]

theorem digitsValAux_append (a b : List Char) (acc : Nat) :
    digitsValAux (a ++ b) acc =
      match digitsValAux a acc with
      | some v => digitsValAux b v
      | none => none := by
  induction a generalizing acc with
  | nil => rfl
  | cons c cs ih =>
    show (if c.isDigit then digitsValAux (cs ++ b) (acc * 10 + (c.toNat - 48)) else none) =
      match (if c.isDigit then digitsValAux cs (acc * 10 + (c.toNat - 48)) else none) with
      | some v => digitsValAux b v
      | none => none
    by_cases hc : c.isDigit
    · rw [if_pos hc, if_pos hc, ih]
    · rw [if_neg hc, if_neg hc]

theorem digitChar_toNat {n : Nat} (h : n < 10) : (digitChar n).toNat - 48 = n := by
  interval_cases n <;> decide

theorem ntoaAux_val : ∀ (fuel n acc : Nat), n < 10 ^ fuel →
    digitsValAux (ntoaAux fuel n) acc =
      some (acc * 10 ^ (ntoaAux fuel n).length + n) := by
  intro fuel
  induction fuel with
  | zero =>
    intro n acc hn
    have : n = 0 := by simpa using hn
    rw [this]
    show some acc = some (acc * 10 ^ (ntoaAux 0 0).length + 0)
    simp [ntoaAux]
  | succ fuel ih =>
    intro n acc hn
    unfold ntoaAux
    by_cases h : n < 10
    · rw [if_pos h]
      show digitsValAux [digitChar n] acc = _
      unfold digitsValAux
      rw [if_pos (digitChar_isDigit h)]
      show some (acc * 10 + ((digitChar n).toNat - 48)) = _
      rw [digitChar_toNat h]
      simp
    · rw [if_neg h]
      rw [digitsValAux_append]
      have hdiv : n / 10 < 10 ^ fuel := by
        refine Nat.div_lt_of_lt_mul ?_
        calc n < 10 ^ (fuel + 1) := hn
          _ = 10 * 10 ^ fuel := by ring
      rw [ih (n / 10) acc hdiv]
      show digitsValAux [digitChar (n % 10)] _ = _
      unfold digitsValAux
      rw [if_pos (digitChar_isDigit (Nat.mod_lt _ (by norm_num)))]
      show some ((acc * 10 ^ (ntoaAux fuel (n / 10)).length + n / 10) * 10 +
        ((digitChar (n % 10)).toNat - 48)) = _
      rw [digitChar_toNat (Nat.mod_lt _ (by norm_num))]
      have hlen : (ntoaAux fuel (n / 10) ++ [digitChar (n % 10)]).length =
          (ntoaAux fuel (n / 10)).length + 1 := by simp
      rw [hlen]
      congr 1
      have hmod : n / 10 * 10 + n % 10 = n := by omega
      ring_nf
      omega

theorem digitsVal_ntoa (n : Nat) : digitsVal (ntoa n) = some n := by
  rcases hn : ntoa n with _ | ⟨c, cs⟩
  · exact absurd hn (ntoa_ne_nil n)
  · have h1 : n < 10 ^ (n + 1) := by
      calc n < 10 ^ n := Nat.lt_pow_self (by norm_num) n
        _ ≤ 10 ^ (n + 1) := Nat.pow_le_pow_right (by norm_num) (Nat.le_succ n)
    have h2 := ntoaAux_val (n + 1) n 0 h1
    rw [show ntoaAux (n + 1) n = ntoa n from rfl, hn] at h2
    unfold digitsVal
    show digitsValAux (c :: cs) 0 = some n
    rw [h2]
    simp

theorem parseUsizeL_ntoa {n : Nat} (h : n < W) : parseUsizeL (ntoa n) = some n := by
  unfold parseUsizeL
  rw [stripPlus_of_digits ntoa_digits, digitsVal_ntoa]
  show (if n < W then some n else none) = some n
  rw [if_pos h]

/-! ### Face tokens round-trip -/

theorem splitSlash_front (a : List Char) (ha : ∀ c ∈ a, c ≠ '/') :
    ∀ (cs acc : List Char), splitSlash (a ++ cs) acc = splitSlash cs (a.reverse ++ acc) := by
  induction a with
  | nil => intro cs acc; rfl
  | cons c t ih =>
    intro cs acc
    have hc : c ≠ '/' := ha c (List.mem_cons_self c t)
    have e1 : splitSlash ((c :: t) ++ cs) acc = splitSlash (t ++ cs) (c :: acc) := by
      show (if c = '/' then acc.reverse :: splitSlash (t ++ cs) []
            else splitSlash (t ++ cs) (c :: acc)) = splitSlash (t ++ cs) (c :: acc)
      rw [if_neg hc]
    rw [e1, ih (fun c' h' => ha c' (List.mem_cons_of_mem _ h')) cs (c :: acc)]
    congr 1
    simp

theorem splitSlash_cons (c : Char) (cs acc : List Char) :
    splitSlash (c :: cs) acc =
      if c = '/' then acc.reverse :: splitSlash cs [] else splitSlash cs (c :: acc) := rfl

theorem splitSlash_single (a : List Char) (ha : ∀ c ∈ a, c ≠ '/') :
    splitSlash a [] = [a] := by
  have h := splitSlash_front a ha [] []
  simp only [List.append_nil] at h
  rw [h]
  show [(a.reverse).reverse] = [a]
  simp

theorem splitSlash_three (a b c : List Char) (ha : ∀ x ∈ a, x ≠ '/')
    (hb : ∀ x ∈ b, x ≠ '/') (hc : ∀ x ∈ c, x ≠ '/') :
    splitSlash (a ++ '/' :: b ++ '/' :: c) [] = [a, b, c] := by
  rw [List.append_assoc, splitSlash_front a ha _ []]
  rw [List.cons_append, splitSlash_cons, if_pos rfl]
  rw [splitSlash_front b hb _ []]
  rw [splitSlash_cons, if_pos rfl]
  rw [splitSlash_single c hc]
  simp

theorem optRefTok_no_slash (o : Option Nat) : ∀ x ∈ optRefTok o, x ≠ '/' := by
  cases o with
  | none => intro x hx; cases hx
  | some v =>
    intro x hx
    exact isDigit_ne_slash (ntoa_digits x hx)

theorem usizeAdd1_lt (v : Nat) : usizeAdd1 v < W := by
  unfold usizeAdd1
  exact Nat.mod_lt _ (by norm_num [W])

theorem usize_round {v : Nat} (h : v < W) : usizeSub1 (usizeAdd1 v) = v := by
  unfold usizeSub1 usizeAdd1 W at *
  omega

theorem faceRefTok_split (r : Nat × Option Nat × Option Nat) :
    splitSlash (faceRefTok r) [] =
      [ntoa (usizeAdd1 r.1), optRefTok r.2.1, optRefTok r.2.2] :=
  splitSlash_three _ _ _
    (fun x hx => isDigit_ne_slash (ntoa_digits x hx))
    (optRefTok_no_slash _) (optRefTok_no_slash _)

theorem parseUsizeL_optRefTok {o : Option Nat} (h : ∀ v ∈ o, v < W) :
    (parseUsizeL (optRefTok o)).map usizeSub1 = o := by
  cases o with
  | none => rfl
  | some v =>
    show (parseUsizeL (ntoa (usizeAdd1 v))).map usizeSub1 = some v
    rw [parseUsizeL_ntoa (usizeAdd1_lt v)]
    show some (usizeSub1 (usizeAdd1 v)) = some v
    rw [usize_round (h v rfl)]

theorem parseFaceArg_faceRefTok {nb : Nat} {r : Nat × Option Nat × Option Nat}
    (h1 : r.1 < W) (h2 : ∀ v ∈ r.2.1, v < W) (h3 : ∀ v ∈ r.2.2, v < W) :
    parseFaceArg nb (faceRefTok r) = .ok r := by
  unfold parseFaceArg
  rw [faceRefTok_split r]
  rw [if_neg (by simp)]
  show (match parseUsizeL (ntoa (usizeAdd1 r.1)) with
        | none => Except.error (LoadingError.Parse nb)
        | some v => Except.ok (usizeSub1 v,
            (if 2 ≤ ([ntoa (usizeAdd1 r.1), optRefTok r.2.1, optRefTok r.2.2] :
                List (List Char)).length then
              (parseUsizeL (([ntoa (usizeAdd1 r.1), optRefTok r.2.1, optRefTok r.2.2] :
                List (List Char)).getD 1 [])).map usizeSub1
            else none),
            (if ([ntoa (usizeAdd1 r.1), optRefTok r.2.1, optRefTok r.2.2] :
                List (List Char)).length = 3 then
              (parseUsizeL (([ntoa (usizeAdd1 r.1), optRefTok r.2.1, optRefTok r.2.2] :
                List (List Char)).getD 2 [])).map usizeSub1
            else none))) = Except.ok r
  rw [parseUsizeL_ntoa (usizeAdd1_lt r.1)]
  show Except.ok (usizeSub1 (usizeAdd1 r.1),
      (if 2 ≤ 3 then (parseUsizeL (optRefTok r.2.1)).map usizeSub1 else none),
      (if 3 = 3 then (parseUsizeL (optRefTok r.2.2)).map usizeSub1 else none)) = Except.ok r
  rw [if_pos (by norm_num), if_pos rfl, usize_round h1,
    parseUsizeL_optRefTok h2, parseUsizeL_optRefTok h3]

theorem parseFaceArgs_roundtrip {nb : Nat}
    {face : List (Nat × Option Nat × Option Nat)}
    (h : ∀ r ∈ face, r.1 < W ∧ (∀ v ∈ r.2.1, v < W) ∧ (∀ v ∈ r.2.2, v < W)) :
    parseFaceArgs nb (face.map faceRefTok) = .ok face := by
  induction face with
  | nil => rfl
  | cons r rest ih =>
    obtain ⟨h1, h2, h3⟩ := h r (List.mem_cons_self r rest)
    show (match parseFaceArg nb (faceRefTok r) with
          | .ok v => (parseFaceArgs nb (rest.map faceRefTok)).map (fun rs => v :: rs)
          | .error e => .error e) = .ok (r :: rest)
    rw [parseFaceArg_faceRefTok h1 h2 h3,
      ih (fun r' h' => h r' (List.mem_cons_of_mem _ h'))]
    rfl

/-! ### Reading back emitted lines -/

theorem unwordsL_eq_flatten (h : List Char) (ts : List (List Char)) :
    unwordsL (h :: ts) = h ++ (ts.map (fun t => ' ' :: t)).flatten := by
  induction ts generalizing h with
  | nil => simp [unwordsL]
  | cons t ts ih =>
    show h ++ ' ' :: unwordsL (t :: ts) = _
    rw [ih t]
    simp

theorem wordsL_line : ∀ (ts : List (List Char)), ts ≠ [] → (∀ t ∈ ts, isTok t) →
    wordsL (unwordsL ts ++ ['\n']) = ts
  | [], h, _ => absurd rfl h
  | [t], _, htok => by
    obtain ⟨hne, hnw⟩ := htok t (List.mem_singleton.mpr rfl)
    show wordsAux (t ++ ['\n']) [] = [t]
    rw [wordsAux_nonws_front t hnw ['\n'] []]
    have hrev : t.reverse ++ [] ≠ [] := by
      simpa using fun h => hne (by simpa using congrArg List.reverse h)
    rw [wordsAux_cons, if_pos (by decide), if_neg hrev, wordsAux_nil, if_pos rfl]
    simp
  | t :: t2 :: ts, _, htok => by
    obtain ⟨hne, hnw⟩ := htok t (List.mem_cons_self _ _)
    show wordsAux ((t ++ ' ' :: unwordsL (t2 :: ts)) ++ ['\n']) [] = t :: t2 :: ts
    rw [List.append_assoc, List.cons_append]
    rw [wordsAux_nonws_front t hnw _ []]
    have hrev : t.reverse ++ [] ≠ [] := by
      simpa using fun h => hne (by simpa using congrArg List.reverse h)
    rw [wordsAux_cons, if_pos (by decide), if_neg hrev]
    rw [show wordsAux (unwordsL (t2 :: ts) ++ ['\n']) [] =
      wordsL (unwordsL (t2 :: ts) ++ ['\n']) from rfl]
    rw [wordsL_line (t2 :: ts) (by simp)
      (fun t' h' => htok t' (List.mem_cons_of_mem _ h'))]
    simp

theorem runLine_tokens {F : Type} (M : FloatModel F) (st : LoadSt F) (id : List Char)
    (args : List (List Char)) (hbuf : st.buf = []) (hid : isTok id)
    (hargs : ∀ a ∈ args, isTok a) (hhash : id.head? ≠ some '#') :
    runLine M st ⟨unwordsL (id :: args)⟩ =
      (handle M id args st).map (fun s => { s with nb := s.nb + 1, buf := [] }) := by
  unfold runLine
  rw [show (⟨unwordsL (id :: args)⟩ : String).data = unwordsL (id :: args) from rfl, hbuf]
  rw [List.nil_append]
  have hc : ((unwordsL (id :: args)) ++ ['\n']).head? ≠ some '#' := by
    rcases hid1 : id with _ | ⟨c, t⟩
    · exact absurd hid1 hid.1
    · rw [unwordsL_eq_flatten]
      rw [List.cons_append, List.cons_append, List.head?_cons]
      rw [hid1] at hhash
      simpa using hhash
  rw [if_neg hc]
  rw [wordsL_line (id :: args) (by simp)
    (fun t ht => by
      rcases List.mem_cons.mp ht with rfl | ht
      · exact hid
      · exact hargs t ht)]

theorem handle_vLine {F : Type} (M : FloatModel F) (p : F × F × F × F) (st : LoadSt F)
    (hrt : ∀ x : F, M.pF (M.fmt x) = some x) :
    handle M ['v'] [M.fmt p.1, M.fmt p.2.1, M.fmt p.2.2.1, M.fmt p.2.2.2] st =
      .ok { st with data := { st.data with vertices := st.data.vertices ++ [p] } } := by
  unfold handle
  rw [if_pos rfl]
  unfold handleV
  have hp : parseAll M [M.fmt p.1, M.fmt p.2.1, M.fmt p.2.2.1, M.fmt p.2.2.2] st.nb =
      .ok [p.1, p.2.1, p.2.2.1, p.2.2.2] := by
    simp [parseAll, hrt, Except.map]
  rw [hp]

theorem vLine_eq_unwords {F : Type} (M : FloatModel F) (p : F × F × F × F) :
    vLine M p = ⟨unwordsL [['v'], M.fmt p.1, M.fmt p.2.1, M.fmt p.2.2.1, M.fmt p.2.2.2]⟩ := by
  show (⟨'v' :: ' ' :: M.fmt p.1 ++ ' ' :: M.fmt p.2.1 ++ ' ' :: M.fmt p.2.2.1 ++
    ' ' :: M.fmt p.2.2.2⟩ : String) = _
  congr 1
  simp [unwordsL, List.append_assoc]

theorem runLine_vLine {F : Type} (M : FloatModel F) (p : F × F × F × F) (st : LoadSt F)
    (hbuf : st.buf = []) (hrt : ∀ x : F, M.pF (M.fmt x) = some x)
    (htok : ∀ x : F, isTok (M.fmt x)) :
    runLine M st (vLine M p) =
      .ok { st with data := { st.data with vertices := st.data.vertices ++ [p] },
                    nb := st.nb + 1, buf := [] } := by
  rw [vLine_eq_unwords, runLine_tokens M st ['v']
    [M.fmt p.1, M.fmt p.2.1, M.fmt p.2.2.1, M.fmt p.2.2.2] hbuf ⟨by decide, by decide⟩
    (fun a ha => by
      simp only [List.mem_cons, List.mem_singleton] at ha
      rcases ha with rfl | rfl | rfl | rfl | h
      · exact htok _
      · exact htok _
      · exact htok _
      · exact htok _
      · cases h)
    (by decide), handle_vLine M p st hrt]
  rfl

theorem loadLines_cons_ok {F : Type} {M : FloatModel F} {st st1 : LoadSt F} {l : String}
    (ls : List String) (h : runLine M st l = .ok st1) :
    loadLines M (l :: ls) st = loadLines M ls st1 := by
  show (match runLine M st l with
        | .ok s => loadLines M ls s
        | .error e => .error e) = _
  rw [h]

theorem handle_vnLine {F : Type} (M : FloatModel F) (p : F × F × F) (st : LoadSt F)
    (hrt : ∀ x : F, M.pF (M.fmt x) = some x) :
    handle M ['v', 'n'] [M.fmt p.1, M.fmt p.2.1, M.fmt p.2.2] st =
      .ok { st with data := { st.data with normals := st.data.normals ++ [p] } } := by
  unfold handle
  rw [if_neg (by decide), if_pos rfl]
  unfold handleVN
  have hp : parseAll M [M.fmt p.1, M.fmt p.2.1, M.fmt p.2.2] st.nb =
      .ok [p.1, p.2.1, p.2.2] := by
    simp [parseAll, hrt, Except.map]
  rw [hp]

theorem vnLine_eq_unwords {F : Type} (M : FloatModel F) (p : F × F × F) :
    vnLine M p = ⟨unwordsL [['v', 'n'], M.fmt p.1, M.fmt p.2.1, M.fmt p.2.2]⟩ := by
  show (⟨'v' :: 'n' :: ' ' :: M.fmt p.1 ++ ' ' :: M.fmt p.2.1 ++ ' ' :: M.fmt p.2.2⟩ :
    String) = _
  congr 1
  simp [unwordsL, List.append_assoc]

theorem runLine_vnLine {F : Type} (M : FloatModel F) (p : F × F × F) (st : LoadSt F)
    (hbuf : st.buf = []) (hrt : ∀ x : F, M.pF (M.fmt x) = some x)
    (htok : ∀ x : F, isTok (M.fmt x)) :
    runLine M st (vnLine M p) =
      .ok { st with data := { st.data with normals := st.data.normals ++ [p] },
                    nb := st.nb + 1, buf := [] } := by
  rw [vnLine_eq_unwords, runLine_tokens M st ['v', 'n']
    [M.fmt p.1, M.fmt p.2.1, M.fmt p.2.2] hbuf ⟨by decide, by decide⟩
    (fun a ha => by
      simp only [List.mem_cons, List.mem_singleton] at ha
      rcases ha with rfl | rfl | rfl | h
      · exact htok _
      · exact htok _
      · exact htok _
      · cases h)
    (by decide), handle_vnLine M p st hrt]
  rfl

theorem handle_vtLine {F : Type} (M : FloatModel F) (p : F × F × F) (st : LoadSt F)
    (hrt : ∀ x : F, M.pF (M.fmt x) = some x) :
    handle M ['v', 't'] [M.fmt p.1, M.fmt p.2.1, M.fmt p.2.2] st =
      .ok { st with data := { st.data with texcoords := st.data.texcoords ++ [p] } } := by
  unfold handle
  rw [if_neg (by decide), if_neg (by decide), if_pos rfl]
  unfold handleVT
  have hp : parseAll M [M.fmt p.1, M.fmt p.2.1, M.fmt p.2.2] st.nb =
      .ok [p.1, p.2.1, p.2.2] := by
    simp [parseAll, hrt, Except.map]
  rw [hp]

theorem vtLine_eq_unwords {F : Type} (M : FloatModel F) (p : F × F × F) :
    vtLine M p = ⟨unwordsL [['v', 't'], M.fmt p.1, M.fmt p.2.1, M.fmt p.2.2]⟩ := by
  show (⟨'v' :: 't' :: ' ' :: M.fmt p.1 ++ ' ' :: M.fmt p.2.1 ++ ' ' :: M.fmt p.2.2⟩ :
    String) = _
  congr 1
  simp [unwordsL, List.append_assoc]

theorem runLine_vtLine {F : Type} (M : FloatModel F) (p : F × F × F) (st : LoadSt F)
    (hbuf : st.buf = []) (hrt : ∀ x : F, M.pF (M.fmt x) = some x)
    (htok : ∀ x : F, isTok (M.fmt x)) :
    runLine M st (vtLine M p) =
      .ok { st with data := { st.data with texcoords := st.data.texcoords ++ [p] },
                    nb := st.nb + 1, buf := [] } := by
  rw [vtLine_eq_unwords, runLine_tokens M st ['v', 't']
    [M.fmt p.1, M.fmt p.2.1, M.fmt p.2.2] hbuf ⟨by decide, by decide⟩
    (fun a ha => by
      simp only [List.mem_cons, List.mem_singleton] at ha
      rcases ha with rfl | rfl | rfl | h
      · exact htok _
      · exact htok _
      · exact htok _
      · cases h)
    (by decide), handle_vtLine M p st hrt]
  rfl

theorem loadLines_vphase {F : Type} (M : FloatModel F)
    (hrt : ∀ x : F, M.pF (M.fmt x) = some x) (htok : ∀ x : F, isTok (M.fmt x)) :
    ∀ (vs V : List (F × F × F × F)) (N T : List (F × F × F))
      (fs : List (List (Nat × Option Nat × Option Nat))) (os : List Object)
      (gs : List Group) (nb : Nat) (ac : List Nat) (ob : Option Nat),
    loadLines M (vs.map (vLine M)) ⟨⟨V, N, T, fs, os, gs⟩, nb, ac, ob, []⟩ =
      .ok ⟨⟨V ++ vs, N, T, fs, os, gs⟩, nb + vs.length, ac, ob, []⟩
  | [], V, N, T, fs, os, gs, nb, ac, ob => by simp [loadLines]
  | p :: vs, V, N, T, fs, os, gs, nb, ac, ob => by
    rw [List.map_cons,
      loadLines_cons_ok _
        (runLine_vLine M p ⟨⟨V, N, T, fs, os, gs⟩, nb, ac, ob, []⟩ rfl hrt htok)]
    rw [loadLines_vphase M hrt htok vs (V ++ [p]) N T fs os gs (nb + 1) ac ob]
    simp [Nat.add_comm, Nat.add_assoc, Nat.add_left_comm]

theorem loadLines_vnphase {F : Type} (M : FloatModel F)
    (hrt : ∀ x : F, M.pF (M.fmt x) = some x) (htok : ∀ x : F, isTok (M.fmt x)) :
    ∀ (ns : List (F × F × F)) (V : List (F × F × F × F)) (N T : List (F × F × F))
      (fs : List (List (Nat × Option Nat × Option Nat))) (os : List Object)
      (gs : List Group) (nb : Nat) (ac : List Nat) (ob : Option Nat),
    loadLines M (ns.map (vnLine M)) ⟨⟨V, N, T, fs, os, gs⟩, nb, ac, ob, []⟩ =
      .ok ⟨⟨V, N ++ ns, T, fs, os, gs⟩, nb + ns.length, ac, ob, []⟩
  | [], V, N, T, fs, os, gs, nb, ac, ob => by simp [loadLines]
  | p :: ns, V, N, T, fs, os, gs, nb, ac, ob => by
    rw [List.map_cons,
      loadLines_cons_ok _
        (runLine_vnLine M p ⟨⟨V, N, T, fs, os, gs⟩, nb, ac, ob, []⟩ rfl hrt htok)]
    rw [loadLines_vnphase M hrt htok ns V (N ++ [p]) T fs os gs (nb + 1) ac ob]
    simp [Nat.add_comm, Nat.add_assoc, Nat.add_left_comm]

theorem loadLines_vtphase {F : Type} (M : FloatModel F)
    (hrt : ∀ x : F, M.pF (M.fmt x) = some x) (htok : ∀ x : F, isTok (M.fmt x)) :
    ∀ (ts : List (F × F × F)) (V : List (F × F × F × F)) (N T : List (F × F × F))
      (fs : List (List (Nat × Option Nat × Option Nat))) (os : List Object)
      (gs : List Group) (nb : Nat) (ac : List Nat) (ob : Option Nat),
    loadLines M (ts.map (vtLine M)) ⟨⟨V, N, T, fs, os, gs⟩, nb, ac, ob, []⟩ =
      .ok ⟨⟨V, N, T ++ ts, fs, os, gs⟩, nb + ts.length, ac, ob, []⟩
  | [], V, N, T, fs, os, gs, nb, ac, ob => by simp [loadLines]
  | p :: ts, V, N, T, fs, os, gs, nb, ac, ob => by
    rw [List.map_cons,
      loadLines_cons_ok _
        (runLine_vtLine M p ⟨⟨V, N, T, fs, os, gs⟩, nb, ac, ob, []⟩ rfl hrt htok)]
    rw [loadLines_vtphase M hrt htok ts V N (T ++ [p]) fs os gs (nb + 1) ac ob]
    simp [Nat.add_comm, Nat.add_assoc, Nat.add_left_comm]

/-! ### First-activation order of the groups -/

theorem membOf_lt {gs : List Group} {i j : Nat} (h : j ∈ membOf gs i) : j < gs.length :=
  ((mem_membOf (Group.new "")).mp h).1

theorem membOf_nodup (gs : List Group) (i : Nat) : (membOf gs i).Nodup :=
  (membOf_sorted gs i).imp Nat.ne_of_lt

theorem ordsUpTo_zero {F : Type} (d : ObjData F) : ordsUpTo d 0 = [] := rfl

theorem ordsUpTo_succ {F : Type} (d : ObjData F) (c : Nat) :
    ordsUpTo d (c + 1) =
      ordsUpTo d c ++ (membOf d.groups c).filter (fun j => j ∉ ordsUpTo d c) := by
  unfold ordsUpTo
  rw [List.range_succ, List.foldl_append]
  rfl

theorem ordsUpTo_lt {F : Type} (d : ObjData F) :
    ∀ (c : Nat), ∀ j ∈ ordsUpTo d c, j < d.groups.length
  | 0, j, hj => absurd hj (List.not_mem_nil j)
  | c + 1, j, hj => by
    rw [ordsUpTo_succ] at hj
    rcases List.mem_append.mp hj with h | h
    · exact ordsUpTo_lt d c j h
    · exact membOf_lt (List.mem_of_mem_filter h)

theorem ordsUpTo_nodup {F : Type} (d : ObjData F) : ∀ (c : Nat), (ordsUpTo d c).Nodup
  | 0 => List.nodup_nil
  | c + 1 => by
    rw [ordsUpTo_succ]
    refine List.Nodup.append (ordsUpTo_nodup d c) ((membOf_nodup _ _).filter _) ?_
    intro a ha hafil
    have := (List.mem_filter.mp hafil).2
    rw [decide_eq_true_iff] at this
    exact this ha

theorem ordsUpTo_complete {F : Type} (d : ObjData F) :
    ∀ (c : Nat) {i j : Nat}, i < c → j ∈ membOf d.groups i → j ∈ ordsUpTo d c
  | 0, i, j, hi, _ => absurd hi (Nat.not_lt_zero i)
  | c + 1, i, j, hi, hj => by
    rw [ordsUpTo_succ]
    rcases Nat.lt_succ_iff_lt_or_eq.mp hi with hi' | rfl
    · exact List.mem_append_left _ (ordsUpTo_complete d c hi' hj)
    · by_cases hin : j ∈ ordsUpTo d i
      · exact List.mem_append_left _ hin
      · exact List.mem_append_right _
          (List.mem_filter.mpr ⟨hj, by simpa using hin⟩)

theorem indexOf_append_left : ∀ (l : List Nat) (t : List Nat) (a : Nat), a ∈ l →
    (l ++ t).indexOf a = l.indexOf a
  | [], _, a, h => absurd h (List.not_mem_nil a)
  | b :: l, t, a, h => by
    by_cases hb : b = a
    · subst hb
      simp [List.indexOf_cons_self]
    · have ha : a ∈ l := by
        rcases List.mem_cons.mp h with h' | h'
        · exact absurd h'.symm hb
        · exact h'
      rw [List.cons_append, List.indexOf_cons_ne _ hb, List.indexOf_cons_ne _ hb,
        indexOf_append_left l t a ha]

theorem indexOf_append_self : ∀ (l : List Nat) (t : List Nat) (a : Nat), a ∉ l →
    (l ++ (a :: t)).indexOf a = l.length
  | [], t, a, _ => by simp [List.indexOf_cons_self]
  | b :: l, t, a, h => by
    have hb : b ≠ a := fun hba => h (hba ▸ List.mem_cons_self b l)
    have ha : a ∉ l := fun ha => h (List.mem_cons_of_mem b ha)
    rw [List.cons_append, List.indexOf_cons_ne _ hb, indexOf_append_self l t a ha]
    rfl

theorem getD_mem {α : Type} {l : List α} {c : Nat} (x : α) (h : c < l.length) :
    l.getD c x ∈ l := by
  rw [List.getD_eq_getElem?_getD, List.getElem?_eq_getElem h]
  exact List.getElem_mem _

theorem take_succ_getD {α : Type} (l : List α) (c : Nat) (x : α) (h : c < l.length) :
    l.take c ++ [l.getD c x] = l.take (c + 1) := by
  rw [List.take_succ, List.getElem?_eq_getElem h, List.getD_eq_getElem?_getD,
    List.getElem?_eq_getElem h]
  rfl

theorem filter_lt_succ_mem {S : Finset Nat} {c : Nat} (h : c ∈ S) :
    S.filter (· < c + 1) = insert c (S.filter (· < c)) := by
  ext x
  simp only [Finset.mem_filter, Finset.mem_insert]
  constructor
  · rintro ⟨hx, hlt⟩
    rcases Nat.lt_succ_iff_lt_or_eq.mp hlt with h' | h'
    · exact Or.inr ⟨hx, h'⟩
    · exact Or.inl h'
  · rintro (rfl | ⟨hx, hlt⟩)
    · exact ⟨h, Nat.lt_succ_self x⟩
    · exact ⟨hx, Nat.lt_succ_of_lt hlt⟩

theorem filter_lt_succ_not_mem {S : Finset Nat} {c : Nat} (h : c ∉ S) :
    S.filter (· < c + 1) = S.filter (· < c) := by
  ext x
  simp only [Finset.mem_filter]
  constructor
  · rintro ⟨hx, hlt⟩
    rcases Nat.lt_succ_iff_lt_or_eq.mp hlt with h' | rfl
    · exact ⟨hx, h'⟩
    · exact absurd hx h
  · rintro ⟨hx, hlt⟩
    exact ⟨hx, Nat.lt_succ_of_lt hlt⟩

theorem groups_name_inj {gs : List Group} (hND : (gs.map Group.name).Nodup)
    {i j : Nat} (hi : i < gs.length) (hj : j < gs.length)
    (h : (gs.getD i (Group.new "")).name = (gs.getD j (Group.new "")).name) : i = j := by
  rw [List.getD_eq_getElem gs _ hi, List.getD_eq_getElem gs _ hj] at h
  have hi' : i < (gs.map Group.name).length := by simpa using hi
  have hj' : j < (gs.map Group.name).length := by simpa using hj
  have hget : (gs.map Group.name).get ⟨i, hi'⟩ = (gs.map Group.name).get ⟨j, hj'⟩ := by
    simpa [List.get_eq_getElem, List.getElem_map] using h
  have := List.nodup_iff_injective_get.mp hND hget
  exact congrArg Fin.val this

theorem range'_split : ∀ (a b : List Nat) (s n : Nat), a ++ b = List.range' s n →
    a = List.range' s a.length ∧ b = List.range' (s + a.length) b.length
  | [], b, s, n, h => by
    have hn : n = b.length := by simpa using (congrArg List.length h).symm
    subst hn
    simpa using h
  | x :: a', b, s, 0, h => by simp at h
  | x :: a', b, s, n + 1, h => by
    rw [show List.range' s (n + 1) = s :: List.range' (s + 1) n from rfl] at h
    injection h with h1 h2
    obtain ⟨ha, hb⟩ := range'_split a' b (s + 1) n h2
    subst h1
    refine ⟨?_, ?_⟩
    · show x :: a' = List.range' x (a'.length + 1)
      rw [show List.range' x (a'.length + 1) = x :: List.range' (x + 1) a'.length from rfl,
        ← ha]
    · rw [show (x :: a').length = a'.length + 1 from rfl,
        show x + (a'.length + 1) = x + 1 + a'.length from by omega]
      exact hb

/-! ### Reading back the face-section lines -/

theorem unwordsL_cons2 (t t2 : List Char) (ts : List (List Char)) :
    unwordsL (t :: t2 :: ts) = t ++ ' ' :: unwordsL (t2 :: ts) := rfl

theorem optRefTok_digits (o : Option Nat) : ∀ c ∈ optRefTok o, c.isDigit := by
  cases o with
  | none => intro c hc; cases hc
  | some v => exact fun c hc => ntoa_digits c hc

theorem faceRefTok_isTok (r : Nat × Option Nat × Option Nat) : isTok (faceRefTok r) := by
  constructor
  · simp [faceRefTok]
  · intro c hc
    unfold faceRefTok at hc
    rcases List.mem_append.mp hc with h | h
    · rcases List.mem_append.mp h with h1 | h1
      · exact isDigit_not_ws (ntoa_digits c h1)
      · rcases List.mem_cons.mp h1 with rfl | h2
        · decide
        · exact isDigit_not_ws (optRefTok_digits _ c h2)
    · rcases List.mem_cons.mp h with rfl | h2
      · decide
      · exact isDigit_not_ws (optRefTok_digits _ c h2)

theorem fLineOf_eq_unwords (f : List (Nat × Option Nat × Option Nat)) :
    fLineOf f = ⟨unwordsL (['f'] :: f.map faceRefTok)⟩ := by
  show (⟨'f' :: (f.map faceArgStr).flatten⟩ : String) = _
  congr 1
  rw [unwordsL_eq_flatten, List.map_map]
  rfl

theorem gLineOf_eq_unwords (gs : List Group) (js : List Nat) :
    gLineOf gs js =
      ⟨unwordsL (['g'] :: js.map (fun j => ((gs.getD j (Group.new "")).name).data))⟩ := by
  show (⟨'g' :: (js.map (fun j => ' ' :: ((gs.getD j (Group.new "")).name).data)).flatten⟩ :
    String) = _
  congr 1
  rw [unwordsL_eq_flatten, List.map_map]
  rfl

theorem pushPrim_last_append : ∀ (pre : List Object) (o : Object) (i : Nat),
    pushPrim (pre ++ [o]) pre.length i = pre ++ [{ o with primitives := o.primitives ++ [i] }]
  | [], o, i => rfl
  | p :: pre, o, i => by
    show p :: pushPrim (pre ++ [o]) pre.length i = _
    rw [pushPrim_last_append pre o i]
    rfl

theorem runLine_fLine {F : Type} (M : FloatModel F)
    (V : List (F × F × F × F)) (N T : List (F × F × F))
    (fs : List (List (Nat × Option Nat × Option Nat))) (os : List Object) (gs : List Group)
    (nb : Nat) (ac : List Nat) (k : Nat)
    (f : List (Nat × Option Nat × Option Nat)) (hf3 : 3 ≤ f.length)
    (hfb : ∀ r ∈ f, r.1 < W ∧ (∀ v ∈ r.2.1, v < W) ∧ (∀ v ∈ r.2.2, v < W)) :
    runLine M ⟨⟨V, N, T, fs, os, gs⟩, nb, ac, some k, []⟩ (fLineOf f) =
      .ok ⟨⟨V, N, T, fs ++ [f], pushPrim os k fs.length, insGroups gs ac fs.length⟩,
        nb + 1, ac, some k, []⟩ := by
  rw [fLineOf_eq_unwords, runLine_tokens M _ ['f'] (f.map faceRefTok) rfl
    ⟨by decide, by decide⟩
    (fun a ha => by
      obtain ⟨r, _, rfl⟩ := List.mem_map.mp ha
      exact faceRefTok_isTok r)
    (by decide)]
  have hh : handle M ['f'] (f.map faceRefTok) ⟨⟨V, N, T, fs, os, gs⟩, nb, ac, some k, []⟩ =
      .ok ⟨⟨V, N, T, fs ++ [f], pushPrim os k ((fs ++ [f]).length - 1),
        insGroups gs ac ((fs ++ [f]).length - 1)⟩, nb, ac, some k, []⟩ := by
    unfold handle
    rw [if_neg (by decide), if_neg (by decide), if_neg (by decide), if_neg (by decide),
      if_pos rfl]
    unfold handleF
    rw [if_neg (by rw [List.length_map]; omega), parseFaceArgs_roundtrip hfb]
    rfl
  rw [hh, show (fs ++ [f]).length - 1 = fs.length from by simp]
  rfl

theorem runLine_fLine_none {F : Type} (M : FloatModel F)
    (V : List (F × F × F × F)) (N T : List (F × F × F))
    (fs : List (List (Nat × Option Nat × Option Nat))) (os : List Object) (gs : List Group)
    (nb : Nat) (ac : List Nat)
    (f : List (Nat × Option Nat × Option Nat)) (hf3 : 3 ≤ f.length)
    (hfb : ∀ r ∈ f, r.1 < W ∧ (∀ v ∈ r.2.1, v < W) ∧ (∀ v ∈ r.2.2, v < W)) :
    runLine M ⟨⟨V, N, T, fs, os, gs⟩, nb, ac, none, []⟩ (fLineOf f) =
      .ok ⟨⟨V, N, T, fs ++ [f], pushPrim (os ++ [Object.new ""]) os.length fs.length,
        insGroups gs ac fs.length⟩, nb + 1, ac, some os.length, []⟩ := by
  rw [fLineOf_eq_unwords, runLine_tokens M _ ['f'] (f.map faceRefTok) rfl
    ⟨by decide, by decide⟩
    (fun a ha => by
      obtain ⟨r, _, rfl⟩ := List.mem_map.mp ha
      exact faceRefTok_isTok r)
    (by decide)]
  have hh : handle M ['f'] (f.map faceRefTok) ⟨⟨V, N, T, fs, os, gs⟩, nb, ac, none, []⟩ =
      .ok ⟨⟨V, N, T, fs ++ [f], pushPrim (os ++ [Object.new ""]) os.length
          ((fs ++ [f]).length - 1),
        insGroups gs ac ((fs ++ [f]).length - 1)⟩, nb, ac, some os.length, []⟩ := by
    unfold handle
    rw [if_neg (by decide), if_neg (by decide), if_neg (by decide), if_neg (by decide),
      if_pos rfl]
    unfold handleF
    rw [if_neg (by rw [List.length_map]; omega), parseFaceArgs_roundtrip hfb]
    rfl
  rw [hh, show (fs ++ [f]).length - 1 = fs.length from by simp]
  rfl

theorem runLine_gLine {F : Type} (M : FloatModel F)
    (V : List (F × F × F × F)) (N T : List (F × F × F))
    (fs : List (List (Nat × Option Nat × Option Nat))) (os : List Object)
    (gs gsW : List Group)
    (nb : Nat) (ac : List Nat) (ob : Option Nat) (js : List Nat)
    (htokn : ∀ j ∈ js, isTok ((gsW.getD j (Group.new "")).name).data)
    (gs' : List Group) (ac' : List Nat)
    (hfold : (js.map (fun j => ((gsW.getD j (Group.new "")).name).data)).foldl gArg
      (gs, []) = (gs', ac')) :
    runLine M ⟨⟨V, N, T, fs, os, gs⟩, nb, ac, ob, []⟩ (gLineOf gsW js) =
      .ok ⟨⟨V, N, T, fs, os, gs'⟩, nb + 1, ac', ob, []⟩ := by
  rw [gLineOf_eq_unwords, runLine_tokens M _ ['g']
    (js.map (fun j => ((gsW.getD j (Group.new "")).name).data)) rfl ⟨by decide, by decide⟩
    (fun a ha => by
      obtain ⟨j, hj, rfl⟩ := List.mem_map.mp ha
      exact htokn j hj)
    (by decide)]
  have hh : handle M ['g'] (js.map (fun j => ((gsW.getD j (Group.new "")).name).data))
      ⟨⟨V, N, T, fs, os, gs⟩, nb, ac, ob, []⟩ =
      .ok ⟨⟨V, N, T, fs, os, gs'⟩, nb, ac', ob, []⟩ := by
    unfold handle
    rw [if_neg (by decide), if_neg (by decide), if_neg (by decide), if_neg (by decide),
      if_neg (by decide), if_neg (by decide), if_pos rfl]
    unfold handleG
    rw [hfold]
  rw [hh]
  rfl

theorem runLine_oLine {F : Type} (M : FloatModel F)
    (V : List (F × F × F × F)) (N T : List (F × F × F))
    (fs : List (List (Nat × Option Nat × Option Nat))) (os : List Object) (gs : List Group)
    (nb : Nat) (ac : List Nat) (ob : Option Nat) (n : String) (hn : canonName n) :
    runLine M ⟨⟨V, N, T, fs, os, gs⟩, nb, ac, ob, []⟩ (⟨'o' :: ' ' :: n.data⟩ : String) =
      .ok ⟨⟨V, N, T, fs, os ++ [Object.new n], gs⟩, nb + 1, ac, some os.length, []⟩ := by
  obtain ⟨hne, hjoin⟩ := hn
  rcases hw : wordsL n.data with _ | ⟨t, ts⟩
  · exact absurd hw hne
  · rw [hw] at hjoin
    have hline : (⟨'o' :: ' ' :: n.data⟩ : String) = ⟨unwordsL (['o'] :: t :: ts)⟩ := by
      congr 1
      rw [unwordsL_cons2, hjoin]
      rfl
    rw [hline, runLine_tokens M _ ['o'] (t :: ts) rfl ⟨by decide, by decide⟩
      (fun a ha => wordsL_isTok a (by rw [hw]; exact ha)) (by decide)]
    have hh : handle M ['o'] (t :: ts) ⟨⟨V, N, T, fs, os, gs⟩, nb, ac, ob, []⟩ =
        .ok ⟨⟨V, N, T, fs, os ++ [Object.new ⟨unwordsL (t :: ts)⟩], gs⟩, nb, ac,
          some os.length, []⟩ := by
      unfold handle
      rw [if_neg (by decide), if_neg (by decide), if_neg (by decide), if_neg (by decide),
        if_neg (by decide), if_pos rfl]
      rfl
    rw [hh, hjoin]
    rfl

/-! ### Re-loading `g` lines over partially rebuilt groups -/

theorem string_eta (s : String) : (⟨s.data⟩ : String) = s := rfl

theorem mapReGroup_getD {F : Type} (d : ObjData F) (c : Nat) (os : List Nat) (p : Nat)
    (hp : p < os.length) :
    (os.map (reGroup d c)).getD p (Group.new "") = reGroup d c (os.getD p 0) := by
  rw [List.getD_eq_getElem _ _ (by simpa using hp), List.getElem_map,
    List.getD_eq_getElem _ _ hp]

theorem mapReGroup_names_nodup {F : Type} (d : ObjData F)
    (hND : (d.groups.map Group.name).Nodup) (c : Nat) (os : List Nat) (hosN : os.Nodup)
    (hoslt : ∀ j ∈ os, j < d.groups.length) :
    ((os.map (reGroup d c)).map Group.name).Nodup := by
  rw [List.map_map]
  refine List.Nodup.map_on ?_ hosN
  intro x hx y hy hxy
  exact groups_name_inj hND (hoslt x hx) (hoslt y hy) hxy

theorem nodup_indexOf_getD : ∀ (l : List Nat), l.Nodup → ∀ (p : Nat), p < l.length →
    l.indexOf (l.getD p 0) = p
  | [], _, p, hp => by simp at hp
  | a :: l, _, 0, _ => by simp [List.indexOf_cons_self]
  | a :: l, hN, p + 1, hp => by
    obtain ⟨ha, hN2⟩ := List.nodup_cons.mp hN
    have hp2 : p < l.length := by simpa using hp
    have hmem : l.getD p 0 ∈ l := getD_mem 0 hp2
    have hne : a ≠ l.getD p 0 := fun h => ha (h ▸ hmem)
    rw [List.getD_cons_succ, List.indexOf_cons_ne _ hne, nodup_indexOf_getD l hN2 p hp2]

theorem hits_of_mem {F : Type} (d : ObjData F) (c : Nat)
    (hND : (d.groups.map Group.name).Nodup) (os : List Nat) (hosN : os.Nodup)
    (hoslt : ∀ x ∈ os, x < d.groups.length) {j : Nat} (hjlt : j < d.groups.length)
    (hjos : j ∈ os) :
    ((os.map (reGroup d c)).enum.filter
      (fun p => p.2.name =
        (⟨((d.groups.getD j (Group.new "")).name).data⟩ : String))).map Prod.fst =
      [os.indexOf j] := by
  rw [show (os.map (reGroup d c)).enum = (os.map (reGroup d c)).enumFrom 0 from rfl]
  have hidx : os.indexOf j < os.length := List.indexOf_lt_length.mpr hjos
  have hgd : os.getD (os.indexOf j) 0 = j := by
    rw [List.getD_eq_getElem _ _ hidx]
    exact List.getElem_indexOf hidx
  have hname : ((os.map (reGroup d c)).getD (os.indexOf j) (Group.new "")).name =
      (⟨((d.groups.getD j (Group.new "")).name).data⟩ : String) := by
    rw [mapReGroup_getD d c os _ hidx]
    show (d.groups.getD (os.getD (os.indexOf j) 0) (Group.new "")).name = _
    rw [hgd]
  have h0 := filter_name_eq_single 0
    (mapReGroup_names_nodup d hND c os hosN hoslt) (by simpa using hidx) hname
  simpa using h0

theorem hits_of_not_mem {F : Type} (d : ObjData F) (c : Nat)
    (hND : (d.groups.map Group.name).Nodup) (os : List Nat)
    (hoslt : ∀ x ∈ os, x < d.groups.length) {j : Nat} (hjlt : j < d.groups.length)
    (hjos : j ∉ os) :
    ((os.map (reGroup d c)).enum.filter
      (fun p => p.2.name =
        (⟨((d.groups.getD j (Group.new "")).name).data⟩ : String))).map Prod.fst = [] := by
  rw [show (os.map (reGroup d c)).enum = (os.map (reGroup d c)).enumFrom 0 from rfl]
  rw [filter_name_eq_nil 0 (fun g hg hgname => ?_)]
  · rfl
  · obtain ⟨x, hx, rfl⟩ := List.mem_map.mp hg
    have hxj : x = j := groups_name_inj hND (hoslt x hx) hjlt hgname
    exact hjos (hxj ▸ hx)

theorem gArg_fold {F : Type} (d : ObjData F) (c : Nat)
    (hND : (d.groups.map Group.name).Nodup) :
    ∀ (js os A : List Nat), os.Nodup → js.Nodup →
      (∀ j ∈ js, j < d.groups.length) → (∀ j ∈ os, j < d.groups.length) →
      (∀ j ∈ js, j ∉ os →
        ((d.groups.getD j (Group.new "")).indexes).filter (· < c) = ∅) →
      (js.map (fun j => ((d.groups.getD j (Group.new "")).name).data)).foldl gArg
          (os.map (reGroup d c), A) =
        ((os ++ js.filter (fun j => j ∉ os)).map (reGroup d c),
          A ++ js.map (fun j => (os ++ js.filter (fun j => j ∉ os)).indexOf j))
  | [], os, A, _, _, _, _, _ => by simp
  | j :: js, os, A, hosN, hjsN, hjslt, hoslt, hnew => by
    rw [List.map_cons, List.foldl_cons]
    have hjlt : j < d.groups.length := hjslt j (List.mem_cons_self j js)
    have hjnotjs : j ∉ js := (List.nodup_cons.mp hjsN).1
    have hjsN2 : js.Nodup := (List.nodup_cons.mp hjsN).2
    by_cases hjos : j ∈ os
    · have e1 : gArg (os.map (reGroup d c), A)
          ((d.groups.getD j (Group.new "")).name).data =
          (os.map (reGroup d c), A ++ [os.indexOf j]) := by
        unfold gArg
        rw [hits_of_mem d c hND os hosN hoslt hjlt hjos, if_neg (by simp)]
      rw [e1, gArg_fold d c hND js os (A ++ [os.indexOf j]) hosN hjsN2
        (fun x hx => hjslt x (List.mem_cons_of_mem j hx)) hoslt
        (fun x hx hxos => hnew x (List.mem_cons_of_mem j hx) hxos)]
      have hfcons : (j :: js).filter (fun x => x ∉ os) = js.filter (fun x => x ∉ os) :=
        List.filter_cons_of_neg (by simp [hjos])
      rw [hfcons, List.map_cons,
        indexOf_append_left os (js.filter (fun x => x ∉ os)) j hjos]
      simp
    · have e1 : gArg (os.map (reGroup d c), A)
          ((d.groups.getD j (Group.new "")).name).data =
          (os.map (reGroup d c) ++ [Group.new ⟨((d.groups.getD j (Group.new "")).name).data⟩],
            A ++ [(os.map (reGroup d c)).length]) := by
        unfold gArg
        rw [hits_of_not_mem d c hND os hoslt hjlt hjos, if_pos rfl]
      have hregj : reGroup d c j = Group.new ((d.groups.getD j (Group.new "")).name) := by
        unfold reGroup
        rw [hnew j (List.mem_cons_self j js) hjos]
        rfl
      have e2 : os.map (reGroup d c) ++
          [Group.new ⟨((d.groups.getD j (Group.new "")).name).data⟩] =
          (os ++ [j]).map (reGroup d c) := by
        rw [List.map_append, List.map_singleton, string_eta, hregj]
      rw [e1, e2, show (os.map (reGroup d c)).length = os.length from List.length_map _ _]
      have hos2N : (os ++ [j]).Nodup :=
        List.Nodup.append hosN (List.nodup_singleton j)
          (fun a ha hb => hjos ((List.mem_singleton.mp hb) ▸ ha))
      rw [gArg_fold d c hND js (os ++ [j]) (A ++ [os.length]) hos2N hjsN2
        (fun x hx => hjslt x (List.mem_cons_of_mem j hx))
        (fun x hx => by
          rcases List.mem_append.mp hx with h | h
          · exact hoslt x h
          · rw [List.mem_singleton.mp h]; exact hjlt)
        (fun x hx hxos => hnew x (List.mem_cons_of_mem j hx)
          (fun hmem => hxos (List.mem_append_left _ hmem)))]
      have hfilter : js.filter (fun x => x ∉ os ++ [j]) = js.filter (fun x => x ∉ os) := by
        refine List.filter_congr (fun x hx => ?_)
        have hxj : x ≠ j := fun h => hjnotjs (h ▸ hx)
        simp [List.mem_append, hxj]
      have hfcons : (j :: js).filter (fun x => x ∉ os) = j :: js.filter (fun x => x ∉ os) :=
        List.filter_cons_of_pos (by simp [hjos])
      rw [hfilter, hfcons, List.append_assoc os [j] (js.filter (fun x => x ∉ os)),
        show [j] ++ js.filter (fun x => x ∉ os) = j :: js.filter (fun x => x ∉ os) from rfl,
        List.map_cons, indexOf_append_self os (js.filter (fun x => x ∉ os)) j hjos]
      simp

theorem insGroups_reGroup {F : Type} (d : ObjData F) (c : Nat)
    (hND : (d.groups.map Group.name).Nodup)
    (os : List Nat) (hosN : os.Nodup) (hoslt : ∀ j ∈ os, j < d.groups.length)
    (hsub : ∀ j ∈ membOf d.groups c, j ∈ os) :
    insGroups (os.map (reGroup d c)) ((membOf d.groups c).map (fun j => os.indexOf j)) c =
      os.map (reGroup d (c + 1)) := by
  refine List.ext_getElem (by rw [insGroups_length]; simp) (fun p h1 h2 => ?_)
  have hp : p < os.length := by simpa using h2
  have hp1 : p < (os.map (reGroup d c)).length := by simpa using hp
  have hjp : os.getD p 0 ∈ os := getD_mem 0 hp
  have hjplt : os.getD p 0 < d.groups.length := hoslt _ hjp
  rw [← List.getD_eq_getElem _ (Group.new "") h1, ← List.getD_eq_getElem _ (Group.new "") h2,
    insGroups_getD _ _ _ _ _ hp1, mapReGroup_getD d c os p hp, mapReGroup_getD d (c + 1) os p hp]
  have hmem_iff : p ∈ (membOf d.groups c).map (fun j => os.indexOf j) ↔
      c ∈ (d.groups.getD (os.getD p 0) (Group.new "")).indexes := by
    constructor
    · rintro hpm
      obtain ⟨x, hxm, hxi⟩ := List.mem_map.mp hpm
      have hxos : x ∈ os := hsub x hxm
      have : os.getD p 0 = x := by
        rw [← hxi, List.getD_eq_getElem _ _ (List.indexOf_lt_length.mpr hxos)]
        exact List.getElem_indexOf _
      rw [this]
      exact ((mem_membOf (Group.new "")).mp hxm).2
    · intro hc
      refine List.mem_map.mpr ⟨os.getD p 0, (mem_membOf (Group.new "")).mpr ⟨hjplt, hc⟩, ?_⟩
      exact nodup_indexOf_getD os hosN p hp
  by_cases hc : c ∈ (d.groups.getD (os.getD p 0) (Group.new "")).indexes
  · rw [if_pos (hmem_iff.mpr hc)]
    show ({ reGroup d c (os.getD p 0) with
      indexes := insert c (reGroup d c (os.getD p 0)).indexes } : Group) = _
    unfold reGroup
    rw [← filter_lt_succ_mem hc]
  · rw [if_neg (fun hpm => hc (hmem_iff.mp hpm))]
    unfold reGroup
    rw [filter_lt_succ_not_mem hc]

/-! ### Simulation of re-loading one object's face section -/

theorem writePrims_sim {F : Type} (M : FloatModel F) (d : ObjData F) (hWF : sceneWF d) :
    ∀ (ps : List Nat) (c : Nat), ps = List.range' c ps.length →
      c + ps.length ≤ d.faces.length →
      ∀ (wa : List Nat) (V : List (F × F × F × F)) (N T : List (F × F × F))
        (pre : List Object) (ol : Object) (nb : Nat),
      (∀ j ∈ wa, j ∈ ordsUpTo d c) →
      loadLines M (writePrims d ps wa).1
          ⟨⟨V, N, T, d.faces.take c, pre ++ [ol], (ordsUpTo d c).map (reGroup d c)⟩, nb,
            wa.map (fun j => (ordsUpTo d c).indexOf j), some pre.length, []⟩ =
        .ok ⟨⟨V, N, T, d.faces.take (c + ps.length),
            pre ++ [{ ol with primitives := ol.primitives ++ ps }],
            (ordsUpTo d (c + ps.length)).map (reGroup d (c + ps.length))⟩,
          nb + (writePrims d ps wa).1.length,
          (writePrims d ps wa).2.map (fun j => (ordsUpTo d (c + ps.length)).indexOf j),
          some pre.length, []⟩ ∧
      (∀ j ∈ (writePrims d ps wa).2, j ∈ ordsUpTo d (c + ps.length))
  | [], c, _, _, wa, V, N, T, pre, ol, nb, hwa => by
    refine ⟨?_, fun j hj => hwa j hj⟩
    show Except.ok _ = _
    simp [writePrims]
  | i :: ps, c, hrange, hle, wa, V, N, T, pre, ol, nb, hwa => by
    have hr : i :: ps = c :: List.range' (c + 1) ps.length := hrange
    injection hr with hi hps
    have hi2 : c = i := hi.symm
    subst hi2
    obtain ⟨hflat, htail, hhead, hnames, hgtok, hgnd, hgbound, hfwf⟩ := hWF
    have hc : c < d.faces.length := by
      have := List.length_cons c ps ▸ hle
      omega
    have hfmem : d.faces.getD c [] ∈ d.faces := getD_mem [] hc
    obtain ⟨hf3, hfb⟩ := hfwf _ hfmem
    have hlentake : (d.faces.take c).length = c := by
      rw [List.length_take]
      exact min_eq_left (Nat.le_of_lt hc)
    have htake1 : d.faces.take c ++ [d.faces.getD c []] = d.faces.take (c + 1) :=
      take_succ_getD d.faces c [] hc
    have harith : c + (c :: ps).length = (c + 1) + ps.length := by simp; omega
    have hle2 : (c + 1) + ps.length ≤ d.faces.length := by
      rw [← harith]
      exact hle
    by_cases hwm : wa = membOf d.groups c
    · subst hwm
      rw [writePrims_cons, if_pos rfl]
      have hsub : ∀ j ∈ membOf d.groups c, j ∈ ordsUpTo d c := hwa
      have horr : ordsUpTo d (c + 1) = ordsUpTo d c := by
        rw [ordsUpTo_succ]
        have hnilf : (membOf d.groups c).filter (fun j => j ∉ ordsUpTo d c) = [] := by
          rw [List.filter_eq_nil_iff]
          intro a ha
          simpa using hsub a ha
        rw [hnilf, List.append_nil]
      have hins : insGroups ((ordsUpTo d c).map (reGroup d c))
          ((membOf d.groups c).map (fun j => (ordsUpTo d c).indexOf j)) c =
          (ordsUpTo d c).map (reGroup d (c + 1)) :=
        insGroups_reGroup d c hgnd (ordsUpTo d c) (ordsUpTo_nodup d c)
          (ordsUpTo_lt d c) hsub
      rw [loadLines_cons_ok _ (runLine_fLine M V N T (d.faces.take c) (pre ++ [ol])
        ((ordsUpTo d c).map (reGroup d c)) nb
        ((membOf d.groups c).map (fun j => (ordsUpTo d c).indexOf j)) pre.length
        (d.faces.getD c []) hf3 hfb)]
      rw [htake1, hlentake, pushPrim_last_append, hins]
      obtain ⟨ih1, ih2⟩ := writePrims_sim M d
        ⟨hflat, htail, hhead, hnames, hgtok, hgnd, hgbound, hfwf⟩
        ps (c + 1) hps hle2 (membOf d.groups c) V N T pre
        { ol with primitives := ol.primitives ++ [c] } (nb + 1)
        (fun j hj => horr ▸ hsub j hj)
      refine ⟨?_, fun j hj => by rw [harith]; exact ih2 j hj⟩
      rw [show (ordsUpTo d c).map (reGroup d (c + 1)) =
          (ordsUpTo d (c + 1)).map (reGroup d (c + 1)) from by rw [horr]]
      rw [show (membOf d.groups c).map (fun j => (ordsUpTo d c).indexOf j) =
          (membOf d.groups c).map (fun j => (ordsUpTo d (c + 1)).indexOf j) from by
        rw [horr]]
      rw [ih1, harith]
      show Except.ok _ = _
      simp [Nat.add_comm, Nat.add_assoc, Nat.add_left_comm]
    · rw [writePrims_cons, if_neg hwm]
      have hsub1 : ∀ j ∈ membOf d.groups c, j ∈ ordsUpTo d (c + 1) :=
        fun j hj => ordsUpTo_complete d (c + 1) (Nat.lt_succ_self c) hj
      have hnewf : ∀ j ∈ membOf d.groups c, j ∉ ordsUpTo d c →
          ((d.groups.getD j (Group.new "")).indexes).filter (· < c) = ∅ := by
        intro j hj hjo
        rw [Finset.filter_eq_empty_iff]
        intro x hx hlt
        have hjl : j < d.groups.length := membOf_lt hj
        exact hjo (ordsUpTo_complete d c hlt ((mem_membOf (Group.new "")).mpr ⟨hjl, hx⟩))
      have hfold := gArg_fold d c hgnd (membOf d.groups c) (ordsUpTo d c) []
        (ordsUpTo_nodup d c) (membOf_nodup d.groups c)
        (fun j hj => membOf_lt hj) (ordsUpTo_lt d c) hnewf
      rw [loadLines_cons_ok _ (runLine_gLine M V N T (d.faces.take c) (pre ++ [ol])
        ((ordsUpTo d c).map (reGroup d c)) d.groups nb
        (wa.map (fun j => (ordsUpTo d c).indexOf j)) (some pre.length)
        (membOf d.groups c)
        (fun j hj => hgtok _ (getD_mem (Group.new "") (membOf_lt hj)))
        _ _ (by rw [hfold]))]
      rw [show ordsUpTo d c ++
          (membOf d.groups c).filter (fun j => j ∉ ordsUpTo d c) = ordsUpTo d (c + 1) from
        (ordsUpTo_succ d c).symm, List.nil_append]
      have hins : insGroups ((ordsUpTo d (c + 1)).map (reGroup d c))
          ((membOf d.groups c).map (fun j => (ordsUpTo d (c + 1)).indexOf j)) c =
          (ordsUpTo d (c + 1)).map (reGroup d (c + 1)) :=
        insGroups_reGroup d c hgnd (ordsUpTo d (c + 1)) (ordsUpTo_nodup d (c + 1))
          (ordsUpTo_lt d (c + 1)) hsub1
      rw [loadLines_cons_ok _ (runLine_fLine M V N T (d.faces.take c) (pre ++ [ol])
        ((ordsUpTo d (c + 1)).map (reGroup d c)) (nb + 1)
        ((membOf d.groups c).map (fun j => (ordsUpTo d (c + 1)).indexOf j)) pre.length
        (d.faces.getD c []) hf3 hfb)]
      rw [htake1, hlentake, pushPrim_last_append, hins]
      obtain ⟨ih1, ih2⟩ := writePrims_sim M d
        ⟨hflat, htail, hhead, hnames, hgtok, hgnd, hgbound, hfwf⟩
        ps (c + 1) hps hle2 (membOf d.groups c) V N T pre
        { ol with primitives := ol.primitives ++ [c] } (nb + 1 + 1) hsub1
      refine ⟨?_, fun j hj => by rw [harith]; exact ih2 j hj⟩
      rw [ih1, harith]
      show Except.ok _ = _
      simp [Nat.add_comm, Nat.add_assoc, Nat.add_left_comm]

theorem writeObjs_cons {F : Type} (d : ObjData F) (o : Object) (os : List Object)
    (wa : List Nat) :
    writeObjs d (o :: os) wa =
      (if o.name = "" then (writePrims d o.primitives wa).1
       else (⟨'o' :: ' ' :: o.name.data⟩ : String) :: (writePrims d o.primitives wa).1) ++
        writeObjs d os (writePrims d o.primitives wa).2 := by
  show (match writePrims d o.primitives wa with
        | (ls, a1) =>
          (if o.name = "" then ls
           else (⟨'o' :: ' ' :: o.name.data⟩ : String) :: ls) ++ writeObjs d os a1) = _
  rcases hp : writePrims d o.primitives wa with ⟨ls, a1⟩
  rfl

theorem writeObjs_sim {F : Type} (M : FloatModel F) (d : ObjData F) (hWF : sceneWF d) :
    ∀ (os : List Object) (c : Nat) (wa : List Nat),
      (os.map Object.primitives).flatten = List.range' c (d.faces.length - c) →
      c ≤ d.faces.length →
      (∀ o ∈ os, o.name ≠ "" ∧ canonName o.name) →
      (∀ j ∈ wa, j ∈ ordsUpTo d c) →
      ∀ (V : List (F × F × F × F)) (N T : List (F × F × F)) (acO : List Object)
        (ob : Option Nat) (nb : Nat),
      ∃ (ra : List Nat) (ob2 : Option Nat) (nbf : Nat),
      loadLines M (writeObjs d os wa)
          ⟨⟨V, N, T, d.faces.take c, acO, (ordsUpTo d c).map (reGroup d c)⟩, nb,
            wa.map (fun j => (ordsUpTo d c).indexOf j), ob, []⟩ =
        .ok ⟨⟨V, N, T, d.faces, acO ++ os,
            (ordsUpTo d d.faces.length).map (reGroup d d.faces.length)⟩,
          nbf, ra, ob2, []⟩
  | [], c, wa, hflat2, hcle, _, _, V, N, T, acO, ob, nb => by
    have hlen0 : d.faces.length - c = 0 := by
      have := congrArg List.length hflat2
      simpa [List.length_range'] using this.symm
    have hcl : c = d.faces.length := by omega
    subst hcl
    refine ⟨wa.map (fun j => (ordsUpTo d d.faces.length).indexOf j), ob, nb, ?_⟩
    show Except.ok _ = _
    simp [List.take_length]
  | o :: os, c, wa, hflat2, hcle, hnm, hwa, V, N, T, acO, ob, nb => by
    rw [List.map_cons, List.flatten_cons] at hflat2
    obtain ⟨hop, hrest⟩ := range'_split _ _ _ _ hflat2
    have hsum : o.primitives.length + ((os.map Object.primitives).flatten).length =
        d.faces.length - c := by
      have := congrArg List.length hflat2
      simpa [List.length_range'] using this
    have hc2le : c + o.primitives.length ≤ d.faces.length := by omega
    have hflen : ((os.map Object.primitives).flatten).length =
        d.faces.length - (c + o.primitives.length) := by omega
    rw [hflen] at hrest
    obtain ⟨hone, hocanon⟩ := hnm o (List.mem_cons_self o os)
    obtain ⟨hsim1, hsim2⟩ := writePrims_sim M d hWF o.primitives c hop hc2le wa V N T
      acO (Object.new o.name) (nb + 1) hwa
    obtain ⟨ra, ob2, nbf, hih⟩ := writeObjs_sim M d hWF os (c + o.primitives.length)
      (writePrims d o.primitives wa).2 hrest (by omega)
      (fun o2 ho2 => hnm o2 (List.mem_cons_of_mem o ho2)) hsim2
      V N T (acO ++ [o]) (some acO.length) (nb + 1 + (writePrims d o.primitives wa).1.length)
    refine ⟨ra, ob2, nbf, ?_⟩
    rw [writeObjs_cons, if_neg hone, loadLines_append,
      loadLines_cons_ok _ (runLine_oLine M V N T (d.faces.take c) acO
        ((ordsUpTo d c).map (reGroup d c)) nb
        (wa.map (fun j => (ordsUpTo d c).indexOf j)) ob o.name hocanon)]
    rw [show ({ Object.new o.name with
        primitives := (Object.new o.name).primitives ++ o.primitives } : Object) = o from
      rfl] at hsim1
    rw [hsim1]
    show loadLines M (writeObjs d os (writePrims d o.primitives wa).2) _ = _
    rw [show acO ++ [o] ++ os = acO ++ o :: os from by simp] at hih
    exact hih

theorem writePrims_sim_head {F : Type} (M : FloatModel F) (d : ObjData F) (hWF : sceneWF d)
    (ps : List Nat) (hps : ps = List.range' 0 ps.length) (hne : ps ≠ [])
    (hle : ps.length ≤ d.faces.length)
    (V : List (F × F × F × F)) (N T : List (F × F × F)) (nb : Nat) :
    loadLines M (writePrims d ps []).1 ⟨⟨V, N, T, [], [], []⟩, nb, [], none, []⟩ =
      .ok ⟨⟨V, N, T, d.faces.take ps.length, [⟨"", ps⟩],
          (ordsUpTo d ps.length).map (reGroup d ps.length)⟩,
        nb + (writePrims d ps []).1.length,
        (writePrims d ps []).2.map (fun j => (ordsUpTo d ps.length).indexOf j),
        some 0, []⟩ ∧
    (∀ j ∈ (writePrims d ps []).2, j ∈ ordsUpTo d ps.length) := by
  obtain ⟨hflat, htail, hhead, hnames, hgtok, hgnd, hgbound, hfwf⟩ := hWF
  rcases ps with _ | ⟨i, ps⟩
  · exact absurd rfl hne
  · have hr : i :: ps = 0 :: List.range' 1 ps.length := hps
    injection hr with hi hps2
    subst hi
    have hc : 0 < d.faces.length := by
      have := List.length_cons (0 : Nat) ps ▸ hle
      omega
    have hfmem : d.faces.getD 0 [] ∈ d.faces := getD_mem [] hc
    obtain ⟨hf3, hfb⟩ := hfwf _ hfmem
    have htake1 : [d.faces.getD 0 []] = d.faces.take 1 := by
      have := take_succ_getD d.faces 0 [] hc
      simpa using this
    have hle2 : 1 + ps.length ≤ d.faces.length := by
      have := List.length_cons (0 : Nat) ps ▸ hle
      omega
    have harith : (0 :: ps : List Nat).length = 1 + ps.length := by simp; omega
    by_cases hwm : ([] : List Nat) = membOf d.groups 0
    · rw [writePrims_cons, if_pos hwm]
      have horr : ordsUpTo d 1 = ordsUpTo d 0 := by
        rw [ordsUpTo_succ]
        have hnilf : (membOf d.groups 0).filter (fun j => j ∉ ordsUpTo d 0) = [] := by
          rw [← hwm]
          rfl
        rw [hnilf, List.append_nil]
      rw [loadLines_cons_ok _ (runLine_fLine_none M V N T [] [] [] nb []
        (d.faces.getD 0 []) hf3 hfb)]
      obtain ⟨ih1, ih2⟩ := writePrims_sim M d
        ⟨hflat, htail, hhead, hnames, hgtok, hgnd, hgbound, hfwf⟩
        ps 1 hps2 hle2 [] V N T []
        ⟨"", [0]⟩ (nb + 1) (fun j hj => absurd hj (List.not_mem_nil j))
      simp only [List.nil_append, List.length_nil, List.map_nil] at ih1
      refine ⟨?_, fun j hj => by rw [harith]; exact ih2 j hj⟩
      simp only [List.nil_append, List.length_nil]
      rw [htake1,
        show pushPrim [Object.new ""] 0 0 = [(⟨"", [0]⟩ : Object)] from rfl,
        show insGroups ([] : List Group) [] 0 = ([] : List Group) from rfl,
        show ([] : List Group) = (ordsUpTo d 1).map (reGroup d 1) from by rw [horr]; rfl]
      rw [ih1, harith]
      show Except.ok _ = _
      simp [Nat.add_comm, Nat.add_assoc, Nat.add_left_comm]
    · rw [writePrims_cons, if_neg hwm]
      have hsub1 : ∀ j ∈ membOf d.groups 0, j ∈ ordsUpTo d 1 :=
        fun j hj => ordsUpTo_complete d 1 (Nat.lt_succ_self 0) hj
      have hnewf : ∀ j ∈ membOf d.groups 0, j ∉ ordsUpTo d 0 →
          ((d.groups.getD j (Group.new "")).indexes).filter (· < 0) = ∅ := by
        intro j hj hjo
        rw [Finset.filter_eq_empty_iff]
        intro x hx hlt
        omega
      have hfold := gArg_fold d 0 hgnd (membOf d.groups 0) (ordsUpTo d 0) []
        (ordsUpTo_nodup d 0) (membOf_nodup d.groups 0)
        (fun j hj => membOf_lt hj) (ordsUpTo_lt d 0) hnewf
      rw [loadLines_cons_ok _ (runLine_gLine M V N T [] [] [] d.groups nb [] none
        (membOf d.groups 0)
        (fun j hj => hgtok _ (getD_mem (Group.new "") (membOf_lt hj)))
        _ _ hfold)]
      rw [show ordsUpTo d 0 ++
          (membOf d.groups 0).filter (fun j => j ∉ ordsUpTo d 0) = ordsUpTo d 1 from
        (ordsUpTo_succ d 0).symm, List.nil_append]
      have hins : insGroups ((ordsUpTo d 1).map (reGroup d 0))
          ((membOf d.groups 0).map (fun j => (ordsUpTo d 1).indexOf j)) 0 =
          (ordsUpTo d 1).map (reGroup d 1) :=
        insGroups_reGroup d 0 hgnd (ordsUpTo d 1) (ordsUpTo_nodup d 1)
          (ordsUpTo_lt d 1) hsub1
      rw [loadLines_cons_ok _ (runLine_fLine_none M V N T [] []
        ((ordsUpTo d 1).map (reGroup d 0)) (nb + 1)
        ((membOf d.groups 0).map (fun j => (ordsUpTo d 1).indexOf j))
        (d.faces.getD 0 []) hf3 hfb)]
      obtain ⟨ih1, ih2⟩ := writePrims_sim M d
        ⟨hflat, htail, hhead, hnames, hgtok, hgnd, hgbound, hfwf⟩
        ps 1 hps2 hle2 (membOf d.groups 0) V N T []
        ⟨"", [0]⟩ (nb + 1 + 1) hsub1
      simp only [List.nil_append, List.length_nil] at ih1
      refine ⟨?_, fun j hj => by rw [harith]; exact ih2 j hj⟩
      simp only [List.nil_append, List.length_nil]
      rw [htake1, hins,
        show pushPrim [Object.new ""] 0 0 = [(⟨"", [0]⟩ : Object)] from rfl]
      rw [ih1, harith]
      show Except.ok _ = _
      simp [Nat.add_comm, Nat.add_assoc, Nat.add_left_comm]

/-! ### The round-trip theorem -/

theorem loadLines_append_ok {F : Type} {M : FloatModel F} {st st1 : LoadSt F}
    (l1 l2 : List String) (h : loadLines M l1 st = .ok st1) :
    loadLines M (l1 ++ l2) st = loadLines M l2 st1 := by
  rw [loadLines_append, h]

theorem activationOrder_eq {F : Type} (d : ObjData F)
    (hflat : (d.objects.map Object.primitives).flatten = List.range d.faces.length) :
    activationOrder d = ordsUpTo d d.faces.length := by
  unfold activationOrder ordsUpTo
  rw [hflat]

theorem reGroup_full {F : Type} (d : ObjData F)
    (hgbound : ∀ g ∈ d.groups, ∀ i ∈ g.indexes, i < d.faces.length) {j : Nat}
    (hj : j < d.groups.length) :
    reGroup d d.faces.length j = d.groups.getD j (Group.new "") := by
  unfold reGroup
  rw [Finset.filter_true_of_mem (fun x hx => hgbound _ (getD_mem _ hj) x hx)]

theorem reloadGroups_eq {F : Type} (d : ObjData F)
    (hflat : (d.objects.map Object.primitives).flatten = List.range d.faces.length)
    (hgbound : ∀ g ∈ d.groups, ∀ i ∈ g.indexes, i < d.faces.length) :
    (ordsUpTo d d.faces.length).map (reGroup d d.faces.length) = reloadGroups d := by
  unfold reloadGroups
  rw [activationOrder_eq d hflat]
  exact List.map_congr_left (fun j hj => reGroup_full d hgbound (ordsUpTo_lt d _ j hj))

theorem map_getD_range {α : Type} (l : List α) (x : α) :
    (List.range l.length).map (fun j => l.getD j x) = l := by
  refine List.ext_getElem (by simp) (fun i h1 h2 => ?_)
  rw [List.getElem_map, List.getElem_range, List.getD_eq_getElem _ _ h2]

theorem reloadGroups_of_groupCond {F : Type} (d : ObjData F) (hgc : groupCond d) :
    reloadGroups d = d.groups := by
  unfold reloadGroups
  rw [show activationOrder d = List.range d.groups.length from hgc]
  exact map_getD_range d.groups (Group.new "")

theorem load_write_roundtrip {F : Type} (M : FloatModel F)
    (hrt : ∀ x : F, M.pF (M.fmt x) = some x) (htok : ∀ x : F, isTok (M.fmt x))
    (d : ObjData F) (hWF : sceneWF d) :
    ObjData.load M (ObjData.write M d) = .ok { d with groups := reloadGroups d } := by
  have hWF2 := hWF
  obtain ⟨hflat, htail, hhead, hnames, hgtok, hgnd, hgbound, hfwf⟩ := hWF2
  unfold ObjData.load ObjData.write
  rw [show d.vertices.map (vLine M) ++ d.normals.map (vnLine M) ++
      d.texcoords.map (vtLine M) ++ writeObjs d d.objects [] =
      d.vertices.map (vLine M) ++ (d.normals.map (vnLine M) ++
        (d.texcoords.map (vtLine M) ++ writeObjs d d.objects [])) from by
    simp [List.append_assoc]]
  have h1 := loadLines_vphase M hrt htok d.vertices [] [] [] [] [] [] 0 [] none
  rw [List.nil_append, Nat.zero_add] at h1
  rw [show initSt F = ⟨⟨[], [], [], [], [], []⟩, 0, [], none, []⟩ from rfl,
    loadLines_append_ok _ _ h1]
  have h2 := loadLines_vnphase M hrt htok d.normals d.vertices [] [] [] [] []
    d.vertices.length [] none
  rw [List.nil_append] at h2
  rw [loadLines_append_ok _ _ h2]
  have h3 := loadLines_vtphase M hrt htok d.texcoords d.vertices d.normals [] [] [] []
    (d.vertices.length + d.normals.length) [] none
  rw [List.nil_append] at h3
  rw [loadLines_append_ok _ _ h3]
  rcases hobj : d.objects with _ | ⟨o, os⟩
  · have hflatc := hflat
    rw [hobj] at hflatc
    have hlen0 : d.faces.length = 0 := by
      simpa [List.range_eq_nil] using hflatc.symm
    have hfe : d.faces = [] := List.length_eq_zero.mp hlen0
    have hrg : reloadGroups d = [] := by
      unfold reloadGroups activationOrder
      rw [hobj]
      rfl
    show Except.ok (⟨d.vertices, d.normals, d.texcoords, [], [], []⟩ : ObjData F) = _
    rw [hrg, hfe]
  · have hnm_os : ∀ o2 ∈ os, o2.name ≠ "" ∧ canonName o2.name := by
      intro o2 ho2
      have hne : o2.name ≠ "" := htail o2.name (by
        rw [hobj]
        simpa using List.mem_map_of_mem Object.name ho2)
      have hcn : o2.name = "" ∨ canonName o2.name := hnames o2.name (by
        rw [hobj]
        exact List.mem_map_of_mem _ (List.mem_cons_of_mem o ho2))
      exact ⟨hne, hcn.resolve_left hne⟩
    by_cases hon : o.name = ""
    · have hpne : o.primitives ≠ [] := hhead o (by rw [hobj]; rfl) hon
      have hflat2 : o.primitives ++ (os.map Object.primitives).flatten =
          List.range' 0 d.faces.length := by
        have hflatc := hflat
        rw [hobj] at hflatc
        simpa [List.range_eq_range'] using hflatc
      obtain ⟨hop, hrest⟩ := range'_split _ _ 0 _ hflat2
      have hsum : o.primitives.length + ((os.map Object.primitives).flatten).length =
          d.faces.length := by
        have := congrArg List.length hflat2
        simpa [List.length_range'] using this
      have hople : o.primitives.length ≤ d.faces.length := by omega
      have hrest2 : (os.map Object.primitives).flatten =
          List.range' o.primitives.length (d.faces.length - o.primitives.length) := by
        rw [hrest]
        congr 1
        · omega
        · omega
      obtain ⟨hh1, hh2⟩ := writePrims_sim_head M d hWF o.primitives hop hpne hople
        d.vertices d.normals d.texcoords
        (d.vertices.length + d.normals.length + d.texcoords.length)
      rw [writeObjs_cons, if_pos hon, loadLines_append_ok _ _ hh1]
      have hoeq : (⟨"", o.primitives⟩ : Object) = o := by rw [← hon]
      rw [hoeq]
      obtain ⟨ra, ob2, nbf, hih⟩ := writeObjs_sim M d hWF os o.primitives.length
        (writePrims d o.primitives []).2 hrest2 hople hnm_os hh2
        d.vertices d.normals d.texcoords [o] (some 0)
        (d.vertices.length + d.normals.length + d.texcoords.length +
          (writePrims d o.primitives []).1.length)
      rw [hih]
      show Except.ok _ = _
      rw [reloadGroups_eq d hflat hgbound, List.singleton_append, ← hobj]
    · have hocanon : canonName o.name :=
        (hnames o.name (by rw [hobj]; exact List.mem_map_of_mem _ (List.mem_cons_self o os))
          ).resolve_left hon
      have hnm_all : ∀ o2 ∈ d.objects, o2.name ≠ "" ∧ canonName o2.name := by
        intro o2 ho2
        rw [hobj] at ho2
        rcases List.mem_cons.mp ho2 with rfl | ho2
        · exact ⟨hon, hocanon⟩
        · exact hnm_os o2 ho2
      have hflat0 : (d.objects.map Object.primitives).flatten =
          List.range' 0 (d.faces.length - 0) := by
        rw [hflat, List.range_eq_range', Nat.sub_zero]
      rw [← hobj]
      obtain ⟨ra, ob2, nbf, hih⟩ := writeObjs_sim M d hWF d.objects 0 [] hflat0
        (Nat.zero_le _) hnm_all (fun j hj => absurd hj (List.not_mem_nil j))
        d.vertices d.normals d.texcoords [] none
        (d.vertices.length + d.normals.length + d.texcoords.length)
      simp only [List.take_zero, ordsUpTo_zero, List.map_nil, List.nil_append] at hih
      rw [hih]
      show Except.ok _ = _
      rw [reloadGroups_eq d hflat hgbound]

/-! ### Claim C1 -/

/-- C1, counterexample to the stated claim: the scene produced by loading
the single line `g gr1` has one (empty) group, but `write` emits nothing
for it, so re-loading the written text loses the group structure. -/
theorem lw_c1_counterexample :
    ObjData.load f32TokModel ["g gr1"] =
      .ok ⟨[], [], [], [], [], [⟨"gr1", ∅⟩]⟩ ∧
    ObjData.write f32TokModel (⟨[], [], [], [], [], [⟨"gr1", ∅⟩]⟩ : ObjData String) = [] ∧
    ObjData.load f32TokModel
        (ObjData.write f32TokModel (⟨[], [], [], [], [], [⟨"gr1", ∅⟩]⟩ : ObjData String)) ≠
      .ok ⟨[], [], [], [], [], [⟨"gr1", ∅⟩]⟩ :=
  ⟨by decide, by decide, by decide⟩

/-- C1 (corrected).  For every scene a successful `ObjData::load` returns,
and any float model whose formatting round-trips through its parser and
produces whitespace-free tokens, `ObjData::write` followed by
`ObjData::load` succeeds and restores the vertices, normals, texcoords,
faces and objects exactly; the groups come back as `reloadGroups d`: the
groups owning at least one face, in order of first activation, so the full
scene (groups included) round-trips exactly when `groupCond d` holds —
every group owns a face and the first activations occur in declaration
order.  (Without that condition the group structure can be lost, see the
counterexample.) -/
theorem lw_c1_roundtrip :
    ∀ (F : Type) (M : FloatModel F),
      (∀ x : F, M.pF (M.fmt x) = some x) → (∀ x : F, isTok (M.fmt x)) →
      ∀ (ls : List String) (d : ObjData F), ObjData.load M ls = .ok d →
      ObjData.load M (ObjData.write M d) = .ok { d with groups := reloadGroups d } ∧
      (groupCond d → ObjData.load M (ObjData.write M d) = .ok d) := by
  intro F M hrt htok ls d hld
  have hWF := load_sceneWF hld
  refine ⟨load_write_roundtrip M hrt htok d hWF, fun hgc => ?_⟩
  rw [load_write_roundtrip M hrt htok d hWF, reloadGroups_of_groupCond d hgc]

/-- C1, witness: the corrected round-trip applied to the concrete scene
loaded (over the degenerate one-value float model) from a `v` line and an
`f` line; the scene satisfies `groupCond`, so it round-trips exactly. -/
theorem lw_c1_witness :
    (∀ x : Unit, unitModel.pF (unitModel.fmt x) = some x) ∧
    (∀ x : Unit, isTok (unitModel.fmt x)) ∧
    ObjData.load unitModel ["v 0 0 0 0", "f 1 1 1"] =
      .ok ⟨[((), (), (), ())], [], [],
        [[(0, none, none), (0, none, none), (0, none, none)]], [⟨"", [0]⟩], []⟩ ∧
    groupCond (⟨[((), (), (), ())], [], [],
        [[(0, none, none), (0, none, none), (0, none, none)]], [⟨"", [0]⟩],
        []⟩ : ObjData Unit) ∧
    ObjData.load unitModel (ObjData.write unitModel
        (⟨[((), (), (), ())], [], [],
          [[(0, none, none), (0, none, none), (0, none, none)]], [⟨"", [0]⟩],
          []⟩ : ObjData Unit)) =
      .ok ⟨[((), (), (), ())], [], [],
        [[(0, none, none), (0, none, none), (0, none, none)]], [⟨"", [0]⟩], []⟩ := by
  have hrt : ∀ x : Unit, unitModel.pF (unitModel.fmt x) = some x := by decide
  have htok0 : isTok ['0'] := ⟨by decide, by decide⟩
  have htok : ∀ x : Unit, isTok (unitModel.fmt x) := fun x => htok0
  have hload : ObjData.load unitModel ["v 0 0 0 0", "f 1 1 1"] =
      .ok ⟨[((), (), (), ())], [], [],
        [[(0, none, none), (0, none, none), (0, none, none)]], [⟨"", [0]⟩], []⟩ := by
    decide
  have hgc : groupCond (⟨[((), (), (), ())], [], [],
      [[(0, none, none), (0, none, none), (0, none, none)]], [⟨"", [0]⟩],
      []⟩ : ObjData Unit) := by
    unfold groupCond
    decide
  exact ⟨hrt, htok, hload, hgc,
    (lw_c1_roundtrip Unit unitModel hrt htok _ _ hload).2 hgc⟩

end LwObj
